import Mathlib

/-!
Verification development for the `rust-relations-explorer` repository.

This file gives a shallow embedding, in Lean 4, of the core of the
repository: the regex-based extractor (`src/parser/mod.rs`), the graph
data model and builder (`src/graph/mod.rs`), the path resolver
(`src/graph/resolver.rs`), the cache handling (`src/utils/mod.rs`,
`src/app.rs`) and the query engine (`src/query/mod.rs`).  Rust strings
are modelled as `List Char` (ASCII-faithful: the character classes of
the compiled regexes are modelled over ASCII), `PathBuf` as its list of
components, `HashMap` as an association list (iteration order is the
list order; `insert` overwrites in place), `f64` strengths as `ℚ`
(the code only ever stores the literals 1.0, 0.8, 0.7, 0.5 and never
computes with them), and fallible operations return `Except`.
The regex matchers are written out as explicit scanners that follow the
leftmost, non-overlapping semantics of `Regex::captures_iter`, with the
lazy/greedy and optional-group backtracking of each concrete pattern
spelled out.
-/

/-! ### Character classes and generic scanning helpers -/

/-- ASCII model of the regex class `\s` (space, tab, newline, carriage
return, vertical tab, form feed). -/
def isWs (c : Char) : Bool :=
  c == ' ' || c == '\t' || c == '\n' || c == '\r' || c == '\x0b' || c == '\x0c'

/-- The regex class `[A-Za-z0-9_]` (word characters). -/
def isWordChar (c : Char) : Bool :=
  let n := c.toNat
  (65 ≤ n && n ≤ 90) || (97 ≤ n && n ≤ 122) || (48 ≤ n && n ≤ 57) || n == 95

/-- The regex class `[A-Za-z_]` (identifier start). -/
def isIdentStart (c : Char) : Bool :=
  let n := c.toNat
  (65 ≤ n && n ≤ 90) || (97 ≤ n && n ≤ 122) || n == 95

/-- Consume one expected character. -/
def expectChar (c : Char) : List Char → Option (List Char)
  | [] => none
  | d :: rest => if d == c then some rest else none

/-- Consume an expected literal string. -/
def expectStr : List Char → List Char → Option (List Char)
  | [], s => some s
  | c :: cs, s => (expectChar c s).bind (expectStr cs)

/-- Greedy `\s*`: drop leading whitespace. -/
def wsStar (s : List Char) : List Char := s.dropWhile isWs

/-- Greedy `\s+`: at least one whitespace character. -/
def wsPlus : List Char → Option (List Char)
  | [] => none
  | c :: rest => if isWs c then some (wsStar rest) else none

/-- Greedy `[A-Za-z_][A-Za-z0-9_]*`: an identifier, returned together
with the rest of the input. -/
def pIdent : List Char → Option (List Char × List Char)
  | [] => none
  | c :: rest =>
    if isIdentStart c then some (c :: rest.takeWhile isWordChar, rest.dropWhile isWordChar)
    else none

/-- Naive substring test, modelling Rust's `str::contains`. -/
def containsStr (hay pat : List Char) : Bool :=
  match hay with
  | [] => pat.isEmpty
  | _ :: rest => pat.isPrefixOf hay || containsStr rest pat

/-- `str::trim` on a character list (strip leading and trailing `\s`). -/
def trimChars (s : List Char) : List Char :=
  ((s.dropWhile isWs).reverse.dropWhile isWs).reverse

/-- Rust `split("::")` on a character list: greedy left-to-right split on
the exact two-character separator. -/
def splitColons : List Char → List (List Char)
  | [] => [[]]
  | ':' :: ':' :: rest => [] :: splitColons rest
  | c :: rest =>
    match splitColons rest with
    | [] => [[c]]
    | g :: gs => (c :: g) :: gs

/-- Number of newline characters in a list (used for 1-based line
numbers, mirroring `line_number_for`). -/
def countNl (s : List Char) : Nat := (s.filter (· == '\n')).length

/-! ### Association-list model of `HashMap` -/

/-- Lookup in an association list (modelling `HashMap::get`). -/
def alookup {κ ν : Type} [DecidableEq κ] (l : List (κ × ν)) (k : κ) : Option ν :=
  (l.find? (fun e => e.1 = k)).map (·.2)

/-- Insert-or-overwrite (modelling `HashMap::insert`). -/
def ainsert {κ ν : Type} [DecidableEq κ] (l : List (κ × ν)) (k : κ) (v : ν) :
    List (κ × ν) :=
  if (l.find? (fun e => e.1 = k)).isSome then
    l.map (fun e => if e.1 = k then (k, v) else e)
  else l ++ [(k, v)]

/-- `map.entry(k).or_default().push(v)` for a map to lists. -/
def apush {κ ν : Type} [DecidableEq κ] (l : List (κ × List ν)) (k : κ) (v : ν) :
    List (κ × List ν) :=
  match alookup l k with
  | some vs => ainsert l k (vs ++ [v])
  | none => l ++ [(k, [v])]

/-! ### Data model (src/graph/mod.rs, src/errors.rs)

`PathBuf` is modelled as its list of components; `Arc<str>` as `String`;
`f64` strength as `ℚ` (only the literals 1.0, 0.8, 0.7, 0.5 occur and no
arithmetic is performed on them). -/

/-- A filesystem path as its list of components. -/
abbrev FsPath := List String

/-- `ItemId(pub String)`. -/
abbrev ItemId := String

/-- `PathBuf::display`: components joined by the separator. -/
def pathRender (p : FsPath) : String := String.intercalate "/" p

/-- `Path::file_name`: the last component. -/
def fileName? (p : FsPath) : Option String := p.getLast?

/-- `Path::file_stem` on a single component: drop the extension after the
final dot, keeping the whole name when there is no dot or the only dot
is the leading character. -/
def fileStemChars (cs : List Char) : List Char :=
  match cs.reverse.findIdx? (fun c => c == '.') with
  | none => cs
  | some j => if j = cs.length - 1 then cs else cs.take (cs.length - 1 - j)

/-- `Path::file_stem` of a path. -/
def fileStem? (p : FsPath) : Option String :=
  (fileName? p).map (fun n => String.mk (fileStemChars n.toList))

/-- `Path::parent`: drop the last component (`None` on the empty path). -/
def parentPath? (p : FsPath) : Option FsPath :=
  match p with
  | [] => none
  | _ => some (p.dropLast)

structure Location where
  file : FsPath
  line_start : Nat
  line_end : Nat
deriving DecidableEq, Repr

inductive ItemType where
  | Module (is_inline : Bool)
  | Function (is_async : Bool) (is_const : Bool)
  | Struct (is_tuple : Bool)
  | Enum (variant_count : Nat)
  | Trait (is_object_safe : Bool)
  | Impl (trait_name : Option String) (type_name : String)
  | Const
  | Static (is_mut : Bool)
  | TyAlias
  | Macro
deriving DecidableEq, Repr

inductive Visibility where
  | Public
  | Private
  | PubCrate
  | PubSuper
  | PubIn (scope : String)
deriving DecidableEq, Repr

structure Item where
  id : ItemId
  item_type : ItemType
  name : String
  visibility : Visibility
  location : Location
  attributes : List String
deriving DecidableEq, Repr

structure Import where
  path : String
  «alias» : Option String
deriving DecidableEq, Repr

inductive RelationshipType where
  | Uses (import_type : String)
  | Implements (trait_name : String)
  | Contains (containment_type : String)
  | Extends (extension_type : String)
  | Calls (call_type : String)
deriving DecidableEq, Repr

structure Relationship where
  from_item : ItemId
  to_item : ItemId
  relationship_type : RelationshipType
  strength : ℚ
  context : String
deriving DecidableEq, Repr

structure FileMetrics where
  item_count : Nat := 0
  import_count : Nat := 0
deriving DecidableEq, Repr

structure FileNode where
  path : FsPath := []
  items : List Item := []
  imports : List Import := []
  metrics : FileMetrics := {}
deriving DecidableEq, Repr

structure GraphMetadata where
  generated_at : String := ""
deriving DecidableEq, Repr

/-- `KnowledgeGraph` without the serde-skipped `string_pool` (a runtime
interner of `Arc<str>` handles, with no observable content of its own).
`import_segments` is the serde-skipped precomputed map. -/
structure KnowledgeGraph where
  files : List (FsPath × FileNode) := []
  relationships : List Relationship := []
  metadata : GraphMetadata := {}
  module_parent : List (FsPath × FsPath) := []
  module_children : List (FsPath × List FsPath) := []
  module_segments : List (FsPath × List String) := []
  import_segments : List (FsPath × List (List String × Option String)) := []
deriving DecidableEq, Repr

/-- `errors.rs` `ParseError`; `std::io::Error` is modelled as its message. -/
inductive ParseError where
  | Regex (msg : String)
  | Io (cause : String)
  | InvalidUtf8 (file : FsPath)
deriving DecidableEq, Repr

/-- `errors.rs` `KnowledgeGraphError`.  The `#[from] std::io::Error`
conversion used by the `?` operator produces the `Io` constructor. -/
inductive KnowledgeGraphError where
  | ParseError (file : FsPath) (source : ParseError)
  | Io (cause : String)
  | Query (msg : String)
  | Visualization (msg : String)
deriving DecidableEq, Repr

/-! ### The extractor (src/parser/mod.rs)

Each compiled regex of `RegexPatterns::compile` is embedded as an
explicit matcher at a `(?m)^`-anchor position, returning the payload and
the remaining suffix.  `scanLines` then iterates matchers with the
leftmost, non-overlapping semantics of `captures_iter`: candidate match
starts are the start of input and every position following a newline;
after a match the search resumes at the match end. -/

/-- Ordered choice of two optional results (the leftmost-first
preference of an optional regex group). -/
def palt {α : Type} (a b : Option α) : Option α :=
  match a with
  | some x => some x
  | none => b

/-- The optional visibility prefix `(?P<vis>pub(?:\\([^)]*\\))?\\s+)?`
followed by a tail matcher, with the leftmost-first preference order:
`pub(...)` + whitespace, then bare `pub` + whitespace, then no prefix.
Returns the trimmed visibility text (the Rust code trims the capture). -/
def pVisThen {α : Type} (tail : List Char → Option (α × List Char)) (s : List Char) :
    Option (List Char × α × List Char) :=
  palt
    (match expectStr ['p', 'u', 'b'] s with
     | none => none
     | some s1 =>
       match expectChar '(' s1 with
       | none => none
       | some s2 =>
         match expectChar ')' (s2.dropWhile (fun c => c != ')')) with
         | none => none
         | some s3 =>
           match wsPlus s3 with
           | none => none
           | some s4 =>
             match tail s4 with
             | none => none
             | some (a, r) =>
               some ("pub(".toList ++ s2.takeWhile (fun c => c != ')') ++ [')'], a, r))
    (palt
      (match expectStr ['p', 'u', 'b'] s with
       | none => none
       | some s1 =>
         match wsPlus s1 with
         | none => none
         | some s2 =>
           match tail s2 with
           | none => none
           | some (a, r) => some ("pub".toList, a, r))
      (match tail s with
       | none => none
       | some (a, r) => some (([] : List Char), a, r)))

/-- `fn\\s+(?P<name>[a-zA-Z_][a-zA-Z0-9_]*)\\s*\\(`. -/
def pFnCore (s : List Char) : Option (List Char × List Char) :=
  match expectStr ['f', 'n'] s with
  | none => none
  | some s1 =>
    match wsPlus s1 with
    | none => none
    | some s2 =>
      match pIdent s2 with
      | none => none
      | some (nm, s3) =>
        match expectChar '(' (wsStar s3) with
        | none => none
        | some s4 => some (nm, s4)

/-- `(?:const\\s+)?` then the `fn` core (group preferred, else skipped). -/
def pFnAfterAsync (s : List Char) : Option (List Char × List Char) :=
  palt
    (match expectStr ['c', 'o', 'n', 's', 't'] s with
     | none => none
     | some s1 =>
       match wsPlus s1 with
       | none => none
       | some s2 => pFnCore s2)
    (pFnCore s)

/-- `(?:async\\s+)?(?:const\\s+)?fn\\s+name\\s*\\(`. -/
def pFnTail (s : List Char) : Option (List Char × List Char) :=
  palt
    (match expectStr ['a', 's', 'y', 'n', 'c'] s with
     | none => none
     | some s1 =>
       match wsPlus s1 with
       | none => none
       | some s2 => pFnAfterAsync s2)
    (pFnAfterAsync s)

/-- The `fn_sig` pattern at an anchor: `^\\s*(vis)?(async\\s+)?(const\\s+)?fn\\s+name\\s*\\(`.
Payload: (trimmed visibility text, function name). -/
def fnAt (s : List Char) : Option ((List Char × List Char) × List Char) :=
  (pVisThen pFnTail (wsStar s)).map (fun e => ((e.1, e.2.1), e.2.2))

/-- `struct\\s+(?P<name>[A-Za-z_][A-Za-z0-9_]*)`. -/
def pStructTail (s : List Char) : Option (List Char × List Char) :=
  match expectStr ['s', 't', 'r', 'u', 'c', 't'] s with
  | none => none
  | some s1 =>
    match wsPlus s1 with
    | none => none
    | some s2 => pIdent s2

/-- The `struct_def` pattern at an anchor. -/
def structAt (s : List Char) : Option ((List Char × List Char) × List Char) :=
  (pVisThen pStructTail (wsStar s)).map (fun e => ((e.1, e.2.1), e.2.2))

/-- `enum\\s+(?P<name>[A-Za-z_][A-Za-z0-9_]*)`. -/
def pEnumTail (s : List Char) : Option (List Char × List Char) :=
  match expectStr ['e', 'n', 'u', 'm'] s with
  | none => none
  | some s1 =>
    match wsPlus s1 with
    | none => none
    | some s2 => pIdent s2

/-- The `enum_def` pattern at an anchor. -/
def enumAt (s : List Char) : Option ((List Char × List Char) × List Char) :=
  (pVisThen pEnumTail (wsStar s)).map (fun e => ((e.1, e.2.1), e.2.2))

/-- The trailing `\\s*$` of the import pattern: whitespace consumed
greedily, backtracking so that the stop position is the end of input or
immediately before a newline (multiline `$`). -/
def trailWs : List Char → Option (List Char)
  | [] => some []
  | c :: rest =>
    if isWs c then
      match trailWs rest with
      | some r => some r
      | none => if c == '\n' then some (c :: rest) else none
    else none

/-- `\\s*;\\s*$`. -/
def pSemiTail (s : List Char) : Option (List Char) :=
  match expectChar ';' (wsStar s) with
  | none => none
  | some s1 => trailWs s1

/-- `(?:\\s+as\\s+([A-Za-z_][A-Za-z0-9_]*))?\\s*;\\s*$`, the alias group
preferred over its absence. -/
def pImportCont (s : List Char) : Option (Option (List Char) × List Char) :=
  palt
    (match wsPlus s with
     | none => none
     | some s1 =>
       match expectStr ['a', 's'] s1 with
       | none => none
       | some s2 =>
         match wsPlus s2 with
         | none => none
         | some s3 =>
           match pIdent s3 with
           | none => none
           | some (al, s4) =>
             match pSemiTail s4 with
             | none => none
             | some s5 => some (some al, s5))
    (match pSemiTail s with
     | none => none
     | some s1 => some ((none : Option (List Char)), s1))

/-- The lazy capture `([^;{]+?)` followed by `pImportCont`: shortest
capture first, extended one character at a time; `;` and the opening
brace can never be part of the capture. -/
def pImportPath (acc : List Char) : List Char → Option (List Char × Option (List Char) × List Char)
  | [] => none
  | c :: rest =>
    if c == ';' || c == '\x7b' then none
    else
      match pImportCont rest with
      | some (al, r) => some (acc ++ [c], al, r)
      | none => pImportPath (acc ++ [c]) rest

/-- The `import_stmt` pattern at an anchor:
`^\\s*(?:pub\\s+)?use\\s+([^;{]+?)(?:\\s+as\\s+(ident))?\\s*;\\s*$`.
Payload: (raw captured path, optional alias). -/
def importAt (s : List Char) : Option ((List Char × Option (List Char)) × List Char) :=
  palt
    (match expectStr ['p', 'u', 'b'] (wsStar s) with
     | none => none
     | some s1 =>
       match wsPlus s1 with
       | none => none
       | some s2 =>
         match expectStr ['u', 's', 'e'] s2 with
         | none => none
         | some s3 =>
           match wsPlus s3 with
           | none => none
           | some s4 =>
             match pImportPath [] s4 with
             | none => none
             | some (pth, al, r) => some ((pth, al), r))
    (match expectStr ['u', 's', 'e'] (wsStar s) with
     | none => none
     | some s1 =>
       match wsPlus s1 with
       | none => none
       | some s2 =>
         match pImportPath [] s2 with
         | none => none
         | some (pth, al, r) => some ((pth, al), r))

/-- Iterate a `(?m)^`-anchored matcher over the content, leftmost and
non-overlapping, tracking the 1-based line number of each match start.
Each result is (payload, line of match start, matched span).  The fuel
is the content length; every step consumes at least one character, so
this fuel is exact. -/
def scanLinesAux {α : Type} (pat : List Char → Option (α × List Char)) :
    Nat → List Char → Bool → Nat → List (α × Nat × List Char)
  | 0, _, _, _ => []
  | _ + 1, [], _, _ => []
  | fuel + 1, c :: rest, atStart, line =>
    if atStart then
      match pat (c :: rest) with
      | some (a, r) =>
        let consumed := (c :: rest).take ((c :: rest).length - r.length)
        (a, line, consumed) ::
          scanLinesAux pat fuel r (consumed.getLast? == some '\n') (line + countNl consumed)
      | none =>
        scanLinesAux pat fuel rest (c == '\n') (line + (if c == '\n' then 1 else 0))
    else
      scanLinesAux pat fuel rest (c == '\n') (line + (if c == '\n' then 1 else 0))

/-- All matches of an anchored pattern over a content string. -/
def scanLines {α : Type} (pat : List Char → Option (α × List Char)) (s : List Char) :
    List (α × Nat × List Char) :=
  scanLinesAux pat s.length s true 1

/-- The `^pub\((?P<sc>[^)]+)\)$` regex of `parse_visibility`. -/
def pubInScope? (v : List Char) : Option (List Char) := do
  let s1 ← expectStr "pub(".toList v
  let inner := s1.takeWhile (fun c => c != ')')
  let s2 ← expectChar ')' (s1.dropWhile (fun c => c != ')'))
  if inner = [] ∨ s2 ≠ [] then none else some inner

/-- `parse_visibility` (src/parser/mod.rs, lines 142-160). -/
def parse_visibility (vis : List Char) : Visibility :=
  let v := trimChars vis
  if v = [] then .Private
  else if v = "pub".toList then .Public
  else if v = "pub(crate)".toList then .PubCrate
  else if v = "pub(super)".toList then .PubSuper
  else
    match pubInScope? v with
    | some sc => .PubIn (String.mk sc)
    | none => .Private

/-- `RustParser::extract_items`: all `fn_sig` matches, then all
`struct_def` matches, then all `enum_def` matches, in match order.
`is_async`/`is_const` test for the substrings "async "/"const " in the
matched span; line numbers count newlines before the match start. -/
def extract_items (content : List Char) (path : FsPath) : List Item :=
  let fns := (scanLines fnAt content).map (fun e =>
    let name := String.mk e.1.2
    { id := "fn:" ++ name ++ ":" ++ toString e.2.1
      item_type := ItemType.Function (containsStr e.2.2 "async ".toList)
        (containsStr e.2.2 "const ".toList)
      name := name
      visibility := parse_visibility e.1.1
      location := { file := path, line_start := e.2.1, line_end := e.2.1 }
      attributes := [] })
  let structs := (scanLines structAt content).map (fun e =>
    let name := String.mk e.1.2
    { id := "struct:" ++ name ++ ":" ++ toString e.2.1
      item_type := ItemType.Struct false
      name := name
      visibility := parse_visibility e.1.1
      location := { file := path, line_start := e.2.1, line_end := e.2.1 }
      attributes := [] })
  let enums := (scanLines enumAt content).map (fun e =>
    let name := String.mk e.1.2
    { id := "enum:" ++ name ++ ":" ++ toString e.2.1
      item_type := ItemType.Enum 0
      name := name
      visibility := parse_visibility e.1.1
      location := { file := path, line_start := e.2.1, line_end := e.2.1 }
      attributes := [] })
  fns ++ structs ++ enums

/-- `RustParser::extract_imports`: the captured path is trimmed, the
alias taken verbatim. -/
def extract_imports (content : List Char) : List Import :=
  (scanLines importAt content).map (fun e =>
    { path := String.mk (trimChars e.1.1), «alias» := e.1.2.map String.mk })

/-- `RustParser::parse_file`: builds the `FileNode`; the function only
ever returns `Ok`. -/
def parse_file (content : List Char) (path : FsPath) : Except ParseError FileNode :=
  let items := extract_items content path
  let imports := extract_imports content
  .ok { path := path, items := items, imports := imports
        metrics := { item_count := items.length, import_count := imports.length } }

/-! ### Length accounting for the matchers

Every matcher returns a strictly shorter suffix; the minimum number of
characters consumed by each pattern bounds the number of matches a scan
can produce. -/

theorem wsStar_len (s : List Char) : (wsStar s).length ≤ s.length :=
  (List.dropWhile_sublist _).length_le

theorem expectChar_len {c : Char} {s r : List Char} (h : expectChar c s = some r) :
    r.length + 1 = s.length := by
  cases s with
  | nil => simp [expectChar] at h
  | cons d rest =>
    by_cases hdc : (d == c) = true
    · simp only [expectChar, hdc, if_true, Option.some.injEq] at h
      subst h
      rfl
    · simp [expectChar, hdc] at h

theorem expectStr_len {t s r : List Char} (h : expectStr t s = some r) :
    r.length + t.length = s.length := by
  induction t generalizing s with
  | nil =>
    simp only [expectStr, Option.some.injEq] at h
    subst h
    simp
  | cons c cs ih =>
    simp only [expectStr] at h
    cases hc : expectChar c s with
    | none => rw [hc] at h; cases h
    | some s1 =>
      rw [hc] at h
      have h1 := expectChar_len hc
      have h2 := ih h
      simp only [List.length_cons]
      omega

theorem wsPlus_len {s r : List Char} (h : wsPlus s = some r) :
    r.length + 1 ≤ s.length := by
  cases s with
  | nil => simp [wsPlus] at h
  | cons c rest =>
    by_cases hc : isWs c = true
    · simp only [wsPlus, hc, if_true, Option.some.injEq] at h
      subst h
      have := wsStar_len rest
      simp only [List.length_cons]
      omega
    · simp [wsPlus, hc] at h

theorem pIdent_len {s : List Char} {nm r : List Char} (h : pIdent s = some (nm, r)) :
    r.length + 1 ≤ s.length := by
  cases s with
  | nil => simp [pIdent] at h
  | cons c rest =>
    by_cases hc : isIdentStart c = true
    · simp only [pIdent, hc, if_true, Option.some.injEq, Prod.mk.injEq] at h
      obtain ⟨-, hr⟩ := h
      subst hr
      have := (List.dropWhile_sublist (l := rest) isWordChar).length_le
      simp only [List.length_cons]
      omega
    · simp [pIdent, hc] at h

theorem palt_some {α : Type} {a b : Option α} {v : α} (h : palt a b = some v) :
    a = some v ∨ (a = none ∧ b = some v) := by
  cases a with
  | some x => left; simpa [palt] using h
  | none => right; exact ⟨rfl, by simpa [palt] using h⟩

theorem pFnCore_len {s nm r : List Char} (h : pFnCore s = some (nm, r)) :
    r.length + 5 ≤ s.length := by
  unfold pFnCore at h
  cases h1 : expectStr ['f', 'n'] s with
  | none => simp [h1] at h
  | some s1 =>
    simp only [h1] at h
    cases h2 : wsPlus s1 with
    | none => simp [h2] at h
    | some s2 =>
      simp only [h2] at h
      cases h3 : pIdent s2 with
      | none => simp [h3] at h
      | some p =>
        obtain ⟨nm3, s3⟩ := p
        simp only [h3] at h
        cases h4 : expectChar '(' (wsStar s3) with
        | none => simp [h4] at h
        | some s4 =>
          simp only [h4, Option.some.injEq, Prod.mk.injEq] at h
          obtain ⟨-, hr⟩ := h
          have e1 := expectStr_len h1
          have e2 := wsPlus_len h2
          have e3 := pIdent_len h3
          have e4 := expectChar_len h4
          have e5 := wsStar_len s3
          subst hr
          simp only [List.length_cons, List.length_nil] at e1
          omega

theorem pFnAfterAsync_len {s nm r : List Char} (h : pFnAfterAsync s = some (nm, r)) :
    r.length + 5 ≤ s.length := by
  unfold pFnAfterAsync at h
  rcases palt_some h with h' | ⟨-, h'⟩
  · cases h1 : expectStr ['c', 'o', 'n', 's', 't'] s with
    | none => simp [h1] at h'
    | some s1 =>
      simp only [h1] at h'
      cases h2 : wsPlus s1 with
      | none => simp [h2] at h'
      | some s2 =>
        simp only [h2] at h'
        have e1 := expectStr_len h1
        have e2 := wsPlus_len h2
        have e3 := pFnCore_len h'
        simp only [List.length_cons, List.length_nil] at e1
        omega
  · exact pFnCore_len h'

theorem pFnTail_len {s nm r : List Char} (h : pFnTail s = some (nm, r)) :
    r.length + 5 ≤ s.length := by
  unfold pFnTail at h
  rcases palt_some h with h' | ⟨-, h'⟩
  · cases h1 : expectStr ['a', 's', 'y', 'n', 'c'] s with
    | none => simp [h1] at h'
    | some s1 =>
      simp only [h1] at h'
      cases h2 : wsPlus s1 with
      | none => simp [h2] at h'
      | some s2 =>
        simp only [h2] at h'
        have e1 := expectStr_len h1
        have e2 := wsPlus_len h2
        have e3 := pFnAfterAsync_len h'
        simp only [List.length_cons, List.length_nil] at e1
        omega
  · exact pFnAfterAsync_len h'

theorem pStructTail_len {s nm r : List Char} (h : pStructTail s = some (nm, r)) :
    r.length + 8 ≤ s.length := by
  unfold pStructTail at h
  cases h1 : expectStr ['s', 't', 'r', 'u', 'c', 't'] s with
  | none => simp [h1] at h
  | some s1 =>
    simp only [h1] at h
    cases h2 : wsPlus s1 with
    | none => simp [h2] at h
    | some s2 =>
      simp only [h2] at h
      have e1 := expectStr_len h1
      have e2 := wsPlus_len h2
      have e3 := pIdent_len h
      simp only [List.length_cons, List.length_nil] at e1
      omega

theorem pEnumTail_len {s nm r : List Char} (h : pEnumTail s = some (nm, r)) :
    r.length + 6 ≤ s.length := by
  unfold pEnumTail at h
  cases h1 : expectStr ['e', 'n', 'u', 'm'] s with
  | none => simp [h1] at h
  | some s1 =>
    simp only [h1] at h
    cases h2 : wsPlus s1 with
    | none => simp [h2] at h
    | some s2 =>
      simp only [h2] at h
      have e1 := expectStr_len h1
      have e2 := wsPlus_len h2
      have e3 := pIdent_len h
      simp only [List.length_cons, List.length_nil] at e1
      omega

theorem pVisThen_len {α : Type} {tail : List Char → Option (α × List Char)} {k : Nat}
    (htail : ∀ {s : List Char} {a : α} {r : List Char}, tail s = some (a, r) → r.length + k ≤ s.length)
    {s v : List Char} {a : α} {r : List Char}
    (h : pVisThen tail s = some (v, a, r)) : r.length + k ≤ s.length := by
  unfold pVisThen at h
  rcases palt_some h with h' | ⟨-, h2⟩
  · cases h1 : expectStr ['p', 'u', 'b'] s with
    | none => simp [h1] at h'
    | some s1 =>
      simp only [h1] at h'
      cases hb : expectChar '(' s1 with
      | none => simp [hb] at h'
      | some s2 =>
        simp only [hb] at h'
        cases hc : expectChar ')' (s2.dropWhile (fun c => c != ')')) with
        | none => simp [hc] at h'
        | some s3 =>
          simp only [hc] at h'
          cases hw : wsPlus s3 with
          | none => simp [hw] at h'
          | some s4 =>
            simp only [hw] at h'
            cases ht : tail s4 with
            | none => simp [ht] at h'
            | some p =>
              obtain ⟨a2, r2⟩ := p
              simp only [ht, Option.some.injEq, Prod.mk.injEq] at h'
              obtain ⟨-, -, hr⟩ := h'
              subst hr
              have e1 := expectStr_len h1
              have eb := expectChar_len hb
              have ed := (List.dropWhile_sublist (l := s2) (fun c => c != ')')).length_le
              have ec := expectChar_len hc
              have ew := wsPlus_len hw
              have et := htail ht
              simp only [List.length_cons, List.length_nil] at e1
              omega
  · rcases palt_some h2 with h' | ⟨-, h'⟩
    · cases h1 : expectStr ['p', 'u', 'b'] s with
      | none => simp [h1] at h'
      | some s1 =>
        simp only [h1] at h'
        cases hw : wsPlus s1 with
        | none => simp [hw] at h'
        | some s2 =>
          simp only [hw] at h'
          cases ht : tail s2 with
          | none => simp [ht] at h'
          | some p =>
            obtain ⟨a2, r2⟩ := p
            simp only [ht, Option.some.injEq, Prod.mk.injEq] at h'
            obtain ⟨-, -, hr⟩ := h'
            subst hr
            have e1 := expectStr_len h1
            have ew := wsPlus_len hw
            have et := htail ht
            simp only [List.length_cons, List.length_nil] at e1
            omega
    · cases ht : tail s with
      | none => simp [ht] at h'
      | some p =>
        obtain ⟨a2, r2⟩ := p
        simp only [ht, Option.some.injEq, Prod.mk.injEq] at h'
        obtain ⟨-, -, hr⟩ := h'
        subst hr
        exact htail ht

theorem fnAt_len {s : List Char} {p : List Char × List Char} {r : List Char}
    (h : fnAt s = some (p, r)) : r.length + 5 ≤ s.length := by
  unfold fnAt at h
  cases hv : pVisThen pFnTail (wsStar s) with
  | none => simp [hv] at h
  | some e =>
    obtain ⟨v, a, r2⟩ := e
    simp only [hv, Option.map_some', Option.some.injEq, Prod.mk.injEq] at h
    obtain ⟨h1, hr⟩ := h
    subst hr
    have := pVisThen_len (fun {s a r} hh => pFnTail_len hh) hv
    have := wsStar_len s
    omega

theorem structAt_len {s : List Char} {p : List Char × List Char} {r : List Char}
    (h : structAt s = some (p, r)) : r.length + 8 ≤ s.length := by
  unfold structAt at h
  cases hv : pVisThen pStructTail (wsStar s) with
  | none => simp [hv] at h
  | some e =>
    obtain ⟨v, a, r2⟩ := e
    simp only [hv, Option.map_some', Option.some.injEq, Prod.mk.injEq] at h
    obtain ⟨h1, hr⟩ := h
    subst hr
    have := pVisThen_len (fun {s a r} hh => pStructTail_len hh) hv
    have := wsStar_len s
    omega

theorem enumAt_len {s : List Char} {p : List Char × List Char} {r : List Char}
    (h : enumAt s = some (p, r)) : r.length + 6 ≤ s.length := by
  unfold enumAt at h
  cases hv : pVisThen pEnumTail (wsStar s) with
  | none => simp [hv] at h
  | some e =>
    obtain ⟨v, a, r2⟩ := e
    simp only [hv, Option.map_some', Option.some.injEq, Prod.mk.injEq] at h
    obtain ⟨h1, hr⟩ := h
    subst hr
    have := pVisThen_len (fun {s a r} hh => pEnumTail_len hh) hv
    have := wsStar_len s
    omega

theorem trailWs_len {s r : List Char} (h : trailWs s = some r) : r.length ≤ s.length := by
  induction s with
  | nil =>
    simp only [trailWs, Option.some.injEq] at h
    subst h
    exact Nat.le_refl 0
  | cons c rest ih =>
    by_cases hws : isWs c = true
    · simp only [trailWs, hws, if_true] at h
      cases ht : trailWs rest with
      | some r2 =>
        rw [ht] at h
        injection h with h'
        subst h'
        have := ih ht
        simp only [List.length_cons]
        omega
      | none =>
        rw [ht] at h
        by_cases hnl : (c == '\n') = true
        · simp only [hnl, if_true, Option.some.injEq] at h
          subst h
          exact Nat.le_refl _
        · simp [hnl] at h
    · simp [trailWs, hws] at h

theorem pSemiTail_len {s r : List Char} (h : pSemiTail s = some r) :
    r.length + 1 ≤ s.length := by
  unfold pSemiTail at h
  cases h1 : expectChar ';' (wsStar s) with
  | none => simp [h1] at h
  | some s1 =>
    rw [h1] at h
    have e1 := expectChar_len h1
    have e2 := wsStar_len s
    have e3 := trailWs_len h
    omega

theorem pImportCont_len {s : List Char} {al : Option (List Char)} {r : List Char}
    (h : pImportCont s = some (al, r)) : r.length + 1 ≤ s.length := by
  unfold pImportCont at h
  rcases palt_some h with h' | ⟨-, h'⟩
  · cases h1 : wsPlus s with
    | none => simp [h1] at h'
    | some s1 =>
      simp only [h1] at h'
      cases h2 : expectStr ['a', 's'] s1 with
      | none => simp [h2] at h'
      | some s2 =>
        simp only [h2] at h'
        cases h3 : wsPlus s2 with
        | none => simp [h3] at h'
        | some s3 =>
          simp only [h3] at h'
          cases h4 : pIdent s3 with
          | none => simp [h4] at h'
          | some p =>
            obtain ⟨al2, s4⟩ := p
            simp only [h4] at h'
            cases h5 : pSemiTail s4 with
            | none => simp [h5] at h'
            | some s5 =>
              simp only [h5, Option.some.injEq, Prod.mk.injEq] at h'
              obtain ⟨-, hr⟩ := h'
              subst hr
              have e1 := wsPlus_len h1
              have e2 := expectStr_len h2
              have e3 := wsPlus_len h3
              have e4 := pIdent_len h4
              have e5 := pSemiTail_len h5
              simp only [List.length_cons, List.length_nil] at e2
              omega
  · cases h1 : pSemiTail s with
    | none => simp [h1] at h'
    | some s1 =>
      simp only [h1, Option.some.injEq, Prod.mk.injEq] at h'
      obtain ⟨-, hr⟩ := h'
      subst hr
      exact pSemiTail_len h1

theorem pImportPath_len {s : List Char} {acc pth : List Char} {al : Option (List Char)}
    {r : List Char} (h : pImportPath acc s = some (pth, al, r)) : r.length + 2 ≤ s.length := by
  induction s generalizing acc with
  | nil => simp [pImportPath] at h
  | cons c rest ih =>
    unfold pImportPath at h
    by_cases hc : (c == ';' || c == '\x7b') = true
    · simp [hc] at h
    · simp only [hc, if_false, Bool.false_eq_true] at h
      cases h1 : pImportCont rest with
      | some p =>
        obtain ⟨al2, r2⟩ := p
        simp only [h1, Option.some.injEq, Prod.mk.injEq] at h
        obtain ⟨-, -, hr⟩ := h
        subst hr
        have := pImportCont_len h1
        simp only [List.length_cons]
        omega
      | none =>
        simp only [h1] at h
        have := ih h
        simp only [List.length_cons]
        omega

theorem importAt_len {s : List Char} {p : List Char × Option (List Char)} {r : List Char}
    (h : importAt s = some (p, r)) : r.length + 6 ≤ s.length := by
  unfold importAt at h
  have hws := wsStar_len s
  rcases palt_some h with h' | ⟨-, h'⟩
  · cases h1 : expectStr ['p', 'u', 'b'] (wsStar s) with
    | none => simp [h1] at h'
    | some s1 =>
      simp only [h1] at h'
      cases h2 : wsPlus s1 with
      | none => simp [h2] at h'
      | some s2 =>
        simp only [h2] at h'
        cases h3 : expectStr ['u', 's', 'e'] s2 with
        | none => simp [h3] at h'
        | some s3 =>
          simp only [h3] at h'
          cases h4 : wsPlus s3 with
          | none => simp [h4] at h'
          | some s4 =>
            simp only [h4] at h'
            cases h5 : pImportPath [] s4 with
            | none => simp [h5] at h'
            | some q =>
              obtain ⟨pth, al, r2⟩ := q
              simp only [h5, Option.some.injEq, Prod.mk.injEq] at h'
              obtain ⟨-, hr⟩ := h'
              subst hr
              have e1 := expectStr_len h1
              have e2 := wsPlus_len h2
              have e3 := expectStr_len h3
              have e4 := wsPlus_len h4
              have e5 := pImportPath_len h5
              simp only [List.length_cons, List.length_nil] at e1 e3
              omega
  · cases h1 : expectStr ['u', 's', 'e'] (wsStar s) with
    | none => simp [h1] at h'
    | some s1 =>
      simp only [h1] at h'
      cases h2 : wsPlus s1 with
      | none => simp [h2] at h'
      | some s2 =>
        simp only [h2] at h'
        cases h3 : pImportPath [] s2 with
        | none => simp [h3] at h'
        | some q =>
          obtain ⟨pth, al, r2⟩ := q
          simp only [h3, Option.some.injEq, Prod.mk.injEq] at h'
          obtain ⟨-, hr⟩ := h'
          subst hr
          have e1 := expectStr_len h1
          have e2 := wsPlus_len h2
          have e3 := pImportPath_len h3
          simp only [List.length_cons, List.length_nil] at e1
          omega

/-- Non-overlapping matches each consuming at least `k` characters bound
the number of matches of a scan by `length / k`. -/
theorem scanLinesAux_count {α : Type} {pat : List Char → Option (α × List Char)} {k : Nat}
    (hmin : ∀ {s : List Char} {a : α} {r : List Char},
      pat s = some (a, r) → r.length + k ≤ s.length) :
    ∀ (fuel : Nat) (s : List Char) (b : Bool) (ln : Nat),
      k * (scanLinesAux pat fuel s b ln).length ≤ s.length := by
  intro fuel
  induction fuel with
  | zero => intro s b ln; simp [scanLinesAux]
  | succ n ih =>
    intro s b ln
    cases s with
    | nil => simp [scanLinesAux]
    | cons c rest =>
      cases b with
      | true =>
        simp only [scanLinesAux, if_true]
        cases hp : pat (c :: rest) with
        | none =>
          simp only [hp]
          have h1 := ih rest (c == '\n') (ln + if c == '\n' then 1 else 0)
          simp only [List.length_cons]
          omega
        | some pr =>
          obtain ⟨a, r⟩ := pr
          simp only [hp, List.length_cons]
          have h2 := hmin hp
          simp only [List.length_cons] at h2
          set L := (scanLinesAux pat n r
            ((((c :: rest).take ((c :: rest).length - r.length)).getLast?) == some '\n')
            (ln + countNl ((c :: rest).take ((c :: rest).length - r.length)))).length with hL
          have h1 : k * L ≤ r.length := ih r _ _
          calc k * (L + 1) = k * L + k := by ring
            _ ≤ r.length + k := Nat.add_le_add_right h1 k
            _ ≤ rest.length + 1 := h2
      | false =>
        simp only [scanLinesAux, Bool.false_eq_true, if_false]
        have h1 := ih rest (c == '\n') (ln + if c == '\n' then 1 else 0)
        simp only [List.length_cons]
        omega

/-- C4: the extractor (`parse_file`) succeeds on every input (its only
exit is `Ok`) and the returned `FileNode` satisfies
`items.len() ≤ len(s)+1` and `imports.len() ≤ len(s)+1`, where `len` is
the length of the content.  The minimum consumptions of the three item
patterns (5, 8 and 6 characters per match) make the combined item count
bounded by the content length itself. -/
theorem parse_file_total_bounded (content : List Char) (path : FsPath) :
    ∃ node : FileNode, parse_file content path = Except.ok node ∧
      node.items.length ≤ content.length + 1 ∧
      node.imports.length ≤ content.length + 1 := by
  refine ⟨_, rfl, ?_, ?_⟩
  · show (extract_items content path).length ≤ content.length + 1
    have hf := scanLinesAux_count (fun {s a r} h => fnAt_len h) content.length content true 1
    have hs := scanLinesAux_count (fun {s a r} h => structAt_len h) content.length content true 1
    have he := scanLinesAux_count (fun {s a r} h => enumAt_len h) content.length content true 1
    unfold extract_items
    simp only [List.length_append, List.length_map, scanLines]
    omega
  · show (extract_imports content).length ≤ content.length + 1
    have hi := scanLinesAux_count (fun {s a r} h => importAt_len h) content.length content true 1
    unfold extract_imports
    simp only [List.length_map, scanLines]
    omega

/-- Every payload produced by a scan comes from a successful match of
the pattern. -/
theorem scanLinesAux_mem {α : Type} {pat : List Char → Option (α × List Char)}
    {fuel : Nat} {s : List Char} {b : Bool} {ln : Nat} {e : α × Nat × List Char}
    (h : e ∈ scanLinesAux pat fuel s b ln) :
    ∃ s' r, pat s' = some (e.1, r) := by
  induction fuel generalizing s b ln with
  | zero => simp [scanLinesAux] at h
  | succ n ih =>
    cases s with
    | nil => simp [scanLinesAux] at h
    | cons c rest =>
      cases b with
      | true =>
        simp only [scanLinesAux, if_true] at h
        cases hp : pat (c :: rest) with
        | none =>
          rw [hp] at h
          exact ih h
        | some pr =>
          obtain ⟨a, r⟩ := pr
          rw [hp] at h
          rcases List.mem_cons.mp h with he | h2
          · refine ⟨c :: rest, r, ?_⟩
            rw [hp, he]
          · exact ih h2
      | false =>
        simp only [scanLinesAux, Bool.false_eq_true, if_false] at h
        exact ih h

theorem pImportPath_chars {s acc pth : List Char} {al : Option (List Char)} {r : List Char}
    (h : pImportPath acc s = some (pth, al, r))
    (hacc : ∀ c ∈ acc, (c == ';' || c == '\x7b') = false) :
    ∀ c ∈ pth, (c == ';' || c == '\x7b') = false := by
  induction s generalizing acc with
  | nil => simp [pImportPath] at h
  | cons c rest ih =>
    unfold pImportPath at h
    by_cases hc : (c == ';' || c == '\x7b') = true
    · simp [hc] at h
    · have hc' : (c == ';' || c == '\x7b') = false := by simpa using hc
      simp only [hc', Bool.false_eq_true, if_false] at h
      have hacc' : ∀ d ∈ acc ++ [c], (d == ';' || d == '\x7b') = false := by
        intro d hd
        rcases List.mem_append.mp hd with hd | hd
        · exact hacc d hd
        · simp only [List.mem_singleton] at hd
          subst hd
          exact hc'
      cases h1 : pImportCont rest with
      | some p =>
        obtain ⟨al2, r2⟩ := p
        simp only [h1, Option.some.injEq, Prod.mk.injEq] at h
        obtain ⟨hp, -, -⟩ := h
        subst hp
        exact hacc'
      | none =>
        simp only [h1] at h
        exact ih h hacc'

theorem importAt_chars {s : List Char} {p : List Char × Option (List Char)} {r : List Char}
    (h : importAt s = some (p, r)) :
    ∀ c ∈ p.1, (c == ';' || c == '\x7b') = false := by
  unfold importAt at h
  rcases palt_some h with h' | ⟨-, h'⟩
  · cases h1 : expectStr ['p', 'u', 'b'] (wsStar s) with
    | none => simp [h1] at h'
    | some s1 =>
      simp only [h1] at h'
      cases h2 : wsPlus s1 with
      | none => simp [h2] at h'
      | some s2 =>
        simp only [h2] at h'
        cases h3 : expectStr ['u', 's', 'e'] s2 with
        | none => simp [h3] at h'
        | some s3 =>
          simp only [h3] at h'
          cases h4 : wsPlus s3 with
          | none => simp [h4] at h'
          | some s4 =>
            simp only [h4] at h'
            cases h5 : pImportPath [] s4 with
            | none => simp [h5] at h'
            | some q =>
              obtain ⟨pth, al, r2⟩ := q
              simp only [h5, Option.some.injEq, Prod.mk.injEq] at h'
              obtain ⟨hp, -⟩ := h'
              subst hp
              exact pImportPath_chars h5 (by intro c hc; simp at hc)
  · cases h1 : expectStr ['u', 's', 'e'] (wsStar s) with
    | none => simp [h1] at h'
    | some s1 =>
      simp only [h1] at h'
      cases h2 : wsPlus s1 with
      | none => simp [h2] at h'
      | some s2 =>
        simp only [h2] at h'
        cases h3 : pImportPath [] s2 with
        | none => simp [h3] at h'
        | some q =>
          obtain ⟨pth, al, r2⟩ := q
          simp only [h3, Option.some.injEq, Prod.mk.injEq] at h'
          obtain ⟨hp, -⟩ := h'
          subst hp
          exact pImportPath_chars h3 (by intro c hc; simp at hc)

theorem trimChars_subset {l : List Char} {c : Char} (h : c ∈ trimChars l) : c ∈ l := by
  unfold trimChars at h
  rw [List.mem_reverse] at h
  have h1 := (List.dropWhile_sublist (l := (l.dropWhile isWs).reverse) isWs).subset h
  rw [List.mem_reverse] at h1
  exact (List.dropWhile_sublist (l := l) isWs).subset h1

/-- A concrete use statement with a braced group: `use a::` followed by
a braced `b` and `;`. -/
def bracedUseContent : List Char :=
  ['u', 's', 'e', ' ', 'a', ':', ':', '\x7b', 'b', '\x7d', ';', '\n']

/-- C5 counterexample: on an input containing the use statement
`use a::` + braced group + `;` the extractor records no Import at all —
in particular not one Import carrying the unexpanded path — because the
path class `[^;{]` of `import_stmt` can never cross the brace to reach
the terminating semicolon. -/
theorem extract_imports_braced_counterexample :
    extract_imports bracedUseContent = [] ∧
      (extract_imports bracedUseContent).length ≠ 1 := by
  constructor
  · decide
  · decide

/-- C5 (amended): a use statement whose path includes a braced group is
not matched by the import pattern at all, so no Import is recorded for
it (group expansion is not performed, and no single unexpanded path is
kept either): every Import the extractor ever records has a path free
of both braces and semicolons. -/
theorem extract_imports_no_brace {content : List Char} {imp : Import}
    (h : imp ∈ extract_imports content) :
    '\x7b' ∉ imp.path.toList ∧ ';' ∉ imp.path.toList := by
  unfold extract_imports at h
  obtain ⟨e, he, himp⟩ := List.mem_map.mp h
  obtain ⟨s', r, hpat⟩ := scanLinesAux_mem (by simpa [scanLines] using he)
  have hchars := importAt_chars hpat
  subst himp
  constructor
  · intro hmem
    have := hchars _ (trimChars_subset hmem)
    simp at this
  · intro hmem
    have := hchars _ (trimChars_subset hmem)
    simp at this

/-- Witness for the amended C5 theorem at the concrete input `use a;`. -/
theorem extract_imports_no_brace_witness :
    '\x7b' ∉ ("a" : String).toList ∧ ';' ∉ ("a" : String).toList :=
  @extract_imports_no_brace ("use a;\n".toList)
    { path := "a", «alias» := none } (by decide)

/-! ### Cache (src/utils/mod.rs, `pub mod cache`) -/

structure CacheEntryMeta where
  mtime : Nat := 0
  len : Nat := 0
deriving DecidableEq, Repr

structure CacheEntry where
  meta : CacheEntryMeta := {}
  node : FileNode := {}
deriving DecidableEq, Repr

structure Cache where
  entries : List (FsPath × CacheEntry) := []
deriving DecidableEq, Repr

inductive CacheMode where
  | Use
  | Ignore
  | Rebuild
deriving DecidableEq, Repr

/-- A discovered source file: its path, the stat metadata the builder
collects (already degraded to `(0,0)` when stat fails, lines 163-175),
and the outcome of `fs::read_to_string` (content or io-error message). -/
instance {eps alpha : Type} [DecidableEq eps] [DecidableEq alpha] :
    DecidableEq (Except eps alpha)
  | .ok a, .ok b =>
    if h : a = b then .isTrue (congrArg Except.ok h)
    else .isFalse (fun hc => h (Except.ok.inj hc))
  | .error a, .error b =>
    if h : a = b then .isTrue (congrArg Except.error h)
    else .isFalse (fun hc => h (Except.error.inj hc))
  | .ok _, .error _ => .isFalse (fun hc => Except.noConfusion hc)
  | .error _, .ok _ => .isFalse (fun hc => Except.noConfusion hc)

structure DiskFile where
  path : FsPath
  meta : CacheEntryMeta
  read : Except String (List Char)
deriving DecidableEq, Repr

/-- `fs::read_to_string` during the call-heuristic pass, looked up on
the same disk. -/
def diskRead (disk : List DiskFile) (p : FsPath) : Except String (List Char) :=
  match disk.find? (fun df => df.path = p) with
  | some df => df.read
  | none => .error "not found"

/-! ### Builder pieces (src/graph/mod.rs) -/

/-- The synthetic file-level module item (lines 227-238). -/
def mkFileItem (p : FsPath) : Item :=
  { id := "file:" ++ pathRender p
    item_type := .Module false
    name := (fileStem? p).getD "(file)"
    visibility := .PubCrate
    location := { file := p, line_start := 1, line_end := 1 }
    attributes := [] }

/-- `file_contains` edges from the file-level item to every following
item (lines 195-207 for cache reuse, 247-259 for fresh parses). -/
def containsEdges (node : FileNode) : List Relationship :=
  let file_id := "file:" ++ pathRender node.path
  (node.items.drop 1).map (fun it =>
    { from_item := file_id
      to_item := it.id
      relationship_type := .Contains "file_contains"
      strength := 1
      context := "auto" })

/-- Index of the first component equal to "src" (lines 285-294). -/
def findSrcIdx (p : FsPath) : Option Nat := p.findIdx? (fun c => c = "src")

/-- Module path segments relative to `src/` (lines 281-318; identical to
the fallback in resolver.rs lines 317-341): directories after the first
`src` component up to but excluding the file name, plus the file stem
unless the file is `mod.rs` or `lib.rs`; empty without a `src`
component. -/
def moduleSegmentsOf (p : FsPath) : List String :=
  match findSrcIdx p with
  | none => []
  | some i =>
    let base := (p.drop (i + 1)).dropLast
    match fileName? p with
    | none => base
    | some file =>
      if file ≠ "mod.rs" ∧ file ≠ "lib.rs" then
        match fileStem? p with
        | some stem => base ++ [stem]
        | none => base
      else base

/-- Import segments of one node (lines 333-347): split each import path
on `::`, drop empty segments; keep the alias only when non-empty and not
an underscore. -/
def importSegmentsOfNode (f : FileNode) : List (List String × Option String) :=
  f.imports.map (fun imp =>
    let parts := ((splitColons imp.path.toList).filter (fun s => s ≠ [])).map String.mk
    let aliasOpt := match imp.«alias» with
      | some a => if a ≠ "" ∧ a ≠ "_" then some a else none
      | none => none
    (parts, aliasOpt))

/-- The precomputed `import_segments` map (lines 321-351): one entry per
file with a non-empty import list. -/
def computeImportSegments (files : List (FsPath × FileNode)) :
    List (FsPath × List (List String × Option String)) :=
  files.foldl (fun m e =>
    if e.2.imports.isEmpty then m else ainsert m e.1 (importSegmentsOfNode e.2)) []

/-! ### Resolver (src/graph/resolver.rs) -/

structure Resolver where
  name_index : List (String × List ItemId) := []
  module_index : List (String × ItemId) := []
  item_to_file : List (ItemId × FsPath) := []
  alias_map : List (String × List String) := []
  exposure_map : List (FsPath × List (String × List String)) := []
deriving DecidableEq, Repr

/-- `exposure_map.entry(path).or_default().insert(last, segments)`. -/
def exposureInsert (m : List (FsPath × List (String × List String))) (p : FsPath)
    (k : String) (v : List String) : List (FsPath × List (String × List String)) :=
  ainsert m p (ainsert ((alookup m p).getD []) k v)

/-- Register one file's items in the resolver indices
(resolver.rs lines 370-385). -/
def resolverAddItems (res : Resolver) (p : FsPath) (f : FileNode) : Resolver :=
  (f.items.enum.foldl (fun res e =>
    let idx := e.1
    let it := e.2
    let res := { res with
      item_to_file := ainsert res.item_to_file it.id p
      name_index := apush res.name_index it.name it.id }
    if idx = 0 then
      match fileStem? p with
      | some stem => { res with module_index := ainsert res.module_index stem it.id }
      | none => res
    else res) res)

/-- Register one file's imports in `alias_map`/`exposure_map`, using the
precomputed `import_segments` when the graph has an entry for the file
(resolver.rs lines 386-419). -/
def resolverAddImports (g : KnowledgeGraph) (res : Resolver) (p : FsPath) (f : FileNode) :
    Resolver :=
  match alookup g.import_segments p with
  | some pre =>
    pre.foldl (fun res e =>
      let segments := e.1
      if segments = [] then res
      else match e.2 with
        | some k => { res with alias_map := ainsert res.alias_map k segments }
        | none =>
          match segments.getLast? with
          | some last => { res with exposure_map := exposureInsert res.exposure_map p last segments }
          | none => res) res
  | none =>
    f.imports.foldl (fun res imp =>
      let segments := ((splitColons imp.path.toList).filter (fun s => s ≠ [])).map String.mk
      match imp.«alias» with
      | some a =>
        if a = "_" then res
        else if a ≠ "" ∧ segments ≠ [] then
          { res with alias_map := ainsert res.alias_map a segments }
        else res
      | none =>
        match segments.getLast? with
        | some last => { res with exposure_map := exposureInsert res.exposure_map p last segments }
        | none => res) res

/-- `Resolver::new` (resolver.rs lines 344-422). -/
def resolverNew (g : KnowledgeGraph) : Resolver :=
  g.files.foldl (fun res e =>
    resolverAddImports g (resolverAddItems res e.1 e.2) e.1 e.2) {}

/-- `module_segments_for` (resolver.rs lines 317-341): the precomputed
entry when present, else the on-the-fly computation. -/
def module_segments_for (g : KnowledgeGraph) (p : FsPath) : List String :=
  match alookup g.module_segments p with
  | some segs => segs
  | none => moduleSegmentsOf p

/-- `base_src_dir` (resolver.rs lines 593-605): components up to and
including the first `src`. -/
def base_src_dir (p : FsPath) : Option FsPath :=
  (findSrcIdx p).map (fun i => p.take (i + 1))

/-- The anchor-prefix loop of `resolve_import` (resolver.rs lines
438-445): `crate` clears the scope, `self` keeps it, `super` pops its
last segment. -/
def anchorLoop : List String → List String → List String × List String
  | [], scope => ([], scope)
  | s :: rest, scope =>
    if s = "crate" then anchorLoop rest []
    else if s = "self" then anchorLoop rest scope
    else if s = "super" then anchorLoop rest scope.dropLast
    else (s :: rest, scope)

/-- `raw_path.split(" as ").next()`: the prefix before the first
occurrence of " as ". -/
def takeBeforeAs : List Char → List Char
  | [] => []
  | c :: rest =>
    if [' ', 'a', 's', ' '].isPrefixOf (c :: rest) then []
    else c :: takeBeforeAs rest

/-- The module-chain walk over all but the last segment (resolver.rs
lines 543-561): descend into `dir/seg` when `dir/seg/mod.rs` or
`dir/seg/lib.rs` is a file of the graph, else accept a sibling
`dir/seg.rs`; otherwise fail. -/
def walkSegs (g : KnowledgeGraph) : FsPath → List String → Option FsPath
  | dir, [] => some dir
  | dir, seg :: rest =>
    let dir1 := dir ++ [seg]
    let has_mod := (alookup g.files (dir1 ++ ["mod.rs"])).isSome
    let has_lib := if ¬ has_mod then (alookup g.files (dir1 ++ ["lib.rs"])).isSome else false
    if has_mod || has_lib then walkSegs g dir1 rest
    else if (alookup g.files (dir ++ [seg ++ ".rs"])).isSome then walkSegs g dir1 rest
    else none

/-- `resolve_scoped_chain` (resolver.rs lines 529-590). -/
def resolve_scoped_chain (g : KnowledgeGraph) (module_index : List (String × ItemId))
    (from_file : FsPath) (scope : List String) (parts : List String) : Option (List ItemId) :=
  match parts.getLast? with
  | none => none
  | some last =>
    match base_src_dir from_file with
    | none => none
    | some base =>
      let is_leaf : Bool := match fileName? from_file with
        | some f => decide (f ≠ "mod.rs" ∧ f ≠ "lib.rs")
        | none => false
      let scope_dirs := if is_leaf ∧ scope ≠ [] then scope.dropLast else scope
      match walkSegs g (base ++ scope_dirs) parts.dropLast with
      | none => none
      | some dir =>
        let tryItems := fun (cand : FsPath) =>
          match alookup g.files cand with
          | some fnode =>
            let ids := (fnode.items.filter (fun it => it.name = last)).map (·.id)
            if ids ≠ [] then some ids else none
          | none => none
        let fromFileRs :=
          match alookup g.files (dir ++ [last ++ ".rs"]) with
          | some fnode =>
            let ids := (fnode.items.filter (fun it => it.name = last)).map (·.id)
            if ids ≠ [] then some ids
            else match alookup module_index last with
              | some mid => some [mid]
              | none => none
          | none => none
        palt fromFileRs
          (palt (tryItems (dir ++ ["mod.rs"])) (tryItems (dir ++ ["lib.rs"])))

/-- `Resolver::resolve_import` (resolver.rs lines 426-507). -/
def resolve_import (g : KnowledgeGraph) (res : Resolver) (from_file : FsPath)
    (raw_path : String) : List ItemId :=
  let path := trimChars (takeBeforeAs raw_path.toList)
  let parts0 := ((splitColons path).filter (fun s => s ≠ [])).map String.mk
  if parts0 = [] then [] else
  let st := anchorLoop parts0 (module_segments_for g from_file)
  let parts1 := st.1
  let scope := st.2
  if parts1 = [] then [] else
  let parts2 := match parts1 with
    | [] => parts1
    | first :: restp =>
      match alookup res.alias_map first with
      | some mapped => mapped ++ restp
      | none => parts1
  let parts3 := match parts2 with
    | [] => parts2
    | first :: restp =>
      match alookup res.exposure_map from_file with
      | some m =>
        match alookup m first with
        | some mapped => mapped ++ restp
        | none => parts2
      | none => parts2
  match resolve_scoped_chain g res.module_index from_file scope parts3 with
  | some ids => ids
  | none =>
    match parts3.getLast? with
    | none => []
    | some last =>
      match alookup res.name_index last with
      | some ids => ids
      | none =>
        match alookup res.module_index last with
        | some mid => [mid]
        | none =>
          if parts3.length ≥ 2 then
            match parts3.head? with
            | some first =>
              match alookup res.module_index first with
              | some _ =>
                match alookup res.name_index last with
                | some ids => ids
                | none =>
                  match scope.head? with
                  | some scope_head =>
                    match alookup res.module_index scope_head with
                    | some _ => (alookup res.name_index last).getD []
                    | none => []
                  | none => []
              | none =>
                match scope.head? with
                | some scope_head =>
                  match alookup res.module_index scope_head with
                  | some _ => (alookup res.name_index last).getD []
                  | none => []
                | none => []
            | none => []
          else []

/-- `Resolver::is_item_function` (resolver.rs lines 509-516). -/
def is_item_function (g : KnowledgeGraph) (res : Resolver) (id : ItemId) : Bool :=
  match alookup res.item_to_file id with
  | some p =>
    match alookup g.files p with
    | some f =>
      match f.items.find? (fun it => it.id = id) with
      | some it =>
        match it.item_type with
        | .Function _ _ => true
        | _ => false
      | none => false
    | none => false
  | none => false

/-- `Resolver::is_file_level_module` (resolver.rs lines 518-525). -/
def is_file_level_module (g : KnowledgeGraph) (res : Resolver) (id : ItemId) : Bool :=
  match alookup res.item_to_file id with
  | some p =>
    match alookup g.files p with
    | some f =>
      match f.items.head? with
      | some first => first.id == id
      | none => false
    | none => false
  | none => false

/-! ### Relationship analysis (src/graph/mod.rs, lines 446-694) -/

/-- The `module_contains` edge (lines 518-526). -/
def mkModuleContainsEdge (parent_id child_id : ItemId) : Relationship :=
  { from_item := parent_id
    to_item := child_id
    relationship_type := .Contains "module_contains"
    strength := 1
    context := "fs" }

/-- Parent-file-candidate resolution (lines 487-513): for `mod.rs` and
`lib.rs` the candidate directory is the grandparent, else the parent;
within it `mod.rs` wins over `lib.rs`. -/
def hierarchyParentId (file_level_id : List (FsPath × ItemId)) (path parent_dir : FsPath) :
    Option ItemId :=
  if (fileName? path).getD "" = "mod.rs" ∨ (fileName? path).getD "" = "lib.rs" then
    match parentPath? parent_dir with
    | some gp =>
      palt (alookup file_level_id (gp ++ ["mod.rs"]))
        (alookup file_level_id (gp ++ ["lib.rs"]))
    | none => none
  else
    palt (alookup file_level_id (parent_dir ++ ["mod.rs"]))
      (alookup file_level_id (parent_dir ++ ["lib.rs"]))

/-- One step of `analyze_module_hierarchy` for a single file path
(lines 474-534): find the parent module file via the filesystem
convention and record the `module_contains` edge and hierarchy maps. -/
def hierarchyStep (file_level_id : List (FsPath × ItemId)) (id_to_path : List (ItemId × FsPath))
    (st : List Relationship × List (FsPath × FsPath) × List (FsPath × List FsPath))
    (path : FsPath) :
    List Relationship × List (FsPath × FsPath) × List (FsPath × List FsPath) :=
  match alookup file_level_id path with
  | none => st
  | some child_id =>
    match parentPath? path with
    | none => st
    | some parent_dir =>
      match hierarchyParentId file_level_id path parent_dir with
      | none => st
      | some parent_id =>
        if parent_id ≠ child_id then
          match alookup id_to_path parent_id with
          | some pp =>
            (st.1 ++ [mkModuleContainsEdge parent_id child_id],
             ainsert st.2.1 path pp, apush st.2.2 pp path)
          | none => (st.1 ++ [mkModuleContainsEdge parent_id child_id], st.2.1, st.2.2)
        else st

/-- The `path -> file-level item id` map (lines 460-465). -/
def fileLevelIdMap (g : KnowledgeGraph) : List (FsPath × ItemId) :=
  g.files.foldl (fun m e =>
    match e.2.items.head? with
    | some it => ainsert m e.1 it.id
    | none => m) []

/-- The reverse `file-level id -> path` map (lines 467-470). -/
def idToPathMap (g : KnowledgeGraph) : List (ItemId × FsPath) :=
  (fileLevelIdMap g).foldl (fun m e => ainsert m e.2 e.1) []

/-- The accumulated hierarchy result over all file paths. -/
def hierarchyState (g : KnowledgeGraph) :
    List Relationship × List (FsPath × FsPath) × List (FsPath × List FsPath) :=
  (g.files.map (·.1)).foldl (hierarchyStep (fileLevelIdMap g) (idToPathMap g)) ([], [], [])

/-- `analyze_module_hierarchy` (lines 455-535): clears the hierarchy
maps, then links each file to its parent module file. -/
def analyze_module_hierarchy (g : KnowledgeGraph) : KnowledgeGraph :=
  { g with relationships := g.relationships ++ (hierarchyState g).1
           module_parent := (hierarchyState g).2.1
           module_children := (hierarchyState g).2.2 }

/-- `analyze_import_uses` (lines 537-581): resolve each import and emit
a `Uses` edge per target distinct from the file itself, with
`import-module` (strength 0.8) for file-level synthetic targets and
`import-item` (strength 1.0) otherwise; context is the raw import path. -/
def usesEdgesForFile (g : KnowledgeGraph) (res : Resolver) (path : FsPath)
    (file : FileNode) : List Relationship :=
  match file.items.head? with
  | none => []
  | some first =>
    file.imports.flatMap (fun imp =>
      (resolve_import g res path imp.path).filterMap (fun tgt =>
        if tgt = first.id then none
        else
          let import_type := if is_file_level_module g res tgt then "import-module"
            else "import-item"
          some { from_item := first.id
                 to_item := tgt
                 relationship_type := .Uses import_type
                 strength := if import_type = "import-item" then (1 : ℚ) else mkRat 8 10
                 context := imp.path }))

/-- All edges `analyze_import_uses` produces. -/
def usesEdges (g : KnowledgeGraph) : List Relationship :=
  g.files.flatMap (fun e => usesEdgesForFile g (resolverNew g) e.1 e.2)

def analyze_import_uses (g : KnowledgeGraph) : KnowledgeGraph :=
  { g with relationships := g.relationships ++ usesEdges g }

/-! ### Call-heuristic pass (lines 583-694)

The two patterns are `P1 = \b(ident(::ident)+)\s*\(` and
`P2 = \b(ident)\s*\(`, iterated with `captures_iter` over the whole
content (not line-anchored); `\b` holds when the preceding character is
not a word character. -/

/-- Scan a free (unanchored) pattern over the content, leftmost and
non-overlapping, tracking the character preceding each candidate start
(for `\b`) and the absolute start offset of each match. -/
def scanFreeAux {α : Type} (pat : Option Char → List Char → Option (α × List Char)) :
    Nat → Option Char → Nat → List Char → List (Nat × α)
  | 0, _, _, _ => []
  | _ + 1, _, _, [] => []
  | fuel + 1, prev, pos, c :: rest =>
    match pat prev (c :: rest) with
    | some (a, r) =>
      let consumed := (c :: rest).take ((c :: rest).length - r.length)
      (pos, a) :: scanFreeAux pat fuel consumed.getLast? (pos + consumed.length) r
    | none => scanFreeAux pat fuel (some c) (pos + 1) rest

/-- All matches of a free pattern, with their start offsets. -/
def scanFree {α : Type} (pat : Option Char → List Char → Option (α × List Char))
    (s : List Char) : List (Nat × α) :=
  scanFreeAux pat s.length none 0 s

/-- `\b` before an identifier: the previous character, if any, is not a
word character. -/
def wordBoundary (prev : Option Char) : Bool :=
  match prev with
  | some c => ¬ isWordChar c
  | none => true

/-- `\s*\(` closing a qualified chain. -/
def closeChain (acc : List (List Char)) (s : List Char) :
    Option (List (List Char) × List Char) :=
  match expectChar '(' (wsStar s) with
  | none => none
  | some s1 => some (acc, s1)

/-- The greedy `(::ident)+` group with backtracking: prefer consuming
another `::ident` group; on failure of the continuation, close the chain
after the groups consumed so far.  At least one group is required. -/
def pChainRest (fuel : Nat) (acc : List (List Char)) (s : List Char) :
    Option (List (List Char) × List Char) :=
  match fuel with
  | 0 => none
  | fuel + 1 =>
    match expectStr [':', ':'] s with
    | none => none
    | some s1 =>
      match pIdent s1 with
      | none => none
      | some (idc, s2) =>
        palt (pChainRest fuel (acc ++ [idc]) s2) (closeChain (acc ++ [idc]) s2)

/-- The `P1` pattern `\b(ident(?:::ident)+)\s*\(` at a position. -/
def p1At (prev : Option Char) (s : List Char) :
    Option (List (List Char) × List Char) :=
  if wordBoundary prev then
    match pIdent s with
    | none => none
    | some (i1, s1) => pChainRest s1.length [i1] s1
  else none

/-- The `P2` pattern `\b(ident)\s*\(` at a position. -/
def p2At (prev : Option Char) (s : List Char) : Option (List Char × List Char) :=
  if wordBoundary prev then
    match pIdent s with
    | none => none
    | some (nm, s1) =>
      match expectChar '(' (wsStar s1) with
      | none => none
      | some s2 => some (nm, s2)
  else none

/-- The P2 exclusion filter (lines 654-668): reject a match whose
preceding 8 characters contain a definition keyword, or whose nearest
preceding non-whitespace character is `!` (a macro invocation). -/
def p2Excluded (content : List Char) (start : Nat) : Bool :=
  let pre := (content.take start).drop (start - 8)
  containsStr pre "fn ".toList || containsStr pre "struct ".toList ||
    containsStr pre "enum ".toList || containsStr pre "trait ".toList ||
    (decide (start > 0) &&
      match (content.take start).reverse.find? (fun c => ¬ isWs c) with
      | some c => c == '!'
      | none => false)

/-- The function-name index (lines 592-607): every `Function` item's id,
keyed by name, in file order. -/
def funcIndexOf (files : List (FsPath × FileNode)) : List (String × List ItemId) :=
  files.foldl (fun m e =>
    e.2.items.foldl (fun m it =>
      match it.item_type with
      | .Function _ _ => apush m it.name it.id
      | _ => m) m) []

/-- Emit one `Calls` edge per target not yet in the per-file `seen`
set keyed by `(from, to)` (lines 634-647 and 669-684). -/
def pushCallEdges (file_id : ItemId) (ctype : String) (strength : ℚ) (ctx : String)
    (targets : List ItemId) (st : List (ItemId × ItemId) × List Relationship) :
    List (ItemId × ItemId) × List Relationship :=
  targets.foldl (fun st tgt =>
    if (file_id, tgt) ∈ st.1 then st
    else (st.1 ++ [(file_id, tgt)],
      st.2 ++ [{ from_item := file_id
                 to_item := tgt
                 relationship_type := .Calls ctype
                 strength := strength
                 context := ctx }])) st

/-- Phase 1 of the call heuristic (lines 624-648): resolve each
qualified chain; when resolution is empty, fall back to the function
index keyed by the last segment; emit `Calls{path}` edges of strength
0.7 with the chain as context. -/
def callsP1 (g : KnowledgeGraph) (res : Resolver) (func_index : List (String × List ItemId))
    (path : FsPath) (file_id : ItemId) (ms : List (Nat × List (List Char)))
    (st : List (ItemId × ItemId) × List Relationship) :
    List (ItemId × ItemId) × List Relationship :=
  ms.foldl (fun st m =>
    let chain := String.intercalate "::" (m.2.map String.mk)
    let targets0 := resolve_import g res path chain
    let targets := if targets0 = [] then
        match m.2.getLast? with
        | some lastSeg => (alookup func_index (String.mk lastSeg)).getD []
        | none => []
      else targets0
    pushCallEdges file_id "path" (mkRat 7 10) chain targets st) st

/-- Phase 2 of the call heuristic (lines 651-685): filtered simple-name
matches emit `Calls{heuristic}` edges of strength 0.5 with the
identifier as context. -/
def callsP2 (func_index : List (String × List ItemId)) (content : List Char)
    (file_id : ItemId) (ms : List (Nat × List Char))
    (st : List (ItemId × ItemId) × List Relationship) :
    List (ItemId × ItemId) × List Relationship :=
  ms.foldl (fun st m =>
    if p2Excluded content m.1 then st
    else
      match alookup func_index (String.mk m.2) with
      | some targets => pushCallEdges file_id "heuristic" (mkRat 5 10) (String.mk m.2) targets st
      | none => st) st

/-- The call edges of a single file (lines 613-687): nothing without a
file-level item or when re-reading the file fails; otherwise P1 then P2
with a shared per-file dedup set. -/
def callsForFile (g : KnowledgeGraph) (res : Resolver)
    (func_index : List (String × List ItemId)) (disk : List DiskFile)
    (path : FsPath) (file : FileNode) : List Relationship :=
  match file.items.head? with
  | none => []
  | some first =>
    match diskRead disk path with
    | .error _ => []
    | .ok content =>
      let st1 := callsP1 g res func_index path first.id (scanFree p1At content) ([], [])
      (callsP2 func_index content first.id (scanFree p2At content) st1).2

/-- All edges `analyze_calls_heuristic` produces. -/
def callsEdges (disk : List DiskFile) (g : KnowledgeGraph) : List Relationship :=
  g.files.flatMap (fun e => callsForFile g (resolverNew g) (funcIndexOf g.files) disk e.1 e.2)

/-- `analyze_calls_heuristic` (lines 583-694). -/
def analyze_calls_heuristic (disk : List DiskFile) (g : KnowledgeGraph) : KnowledgeGraph :=
  { g with relationships := g.relationships ++ callsEdges disk g }

/-- `analyze_relationships` (lines 447-451). -/
def analyze_relationships (disk : List DiskFile) (g : KnowledgeGraph) : KnowledgeGraph :=
  analyze_calls_heuristic disk (analyze_import_uses (analyze_module_hierarchy g))

/-! ### The builder (src/graph/mod.rs, `build_from_directory_with_cache_opts`) -/

/-- The cache state the builder consults (lines 156-160): `Use` loads
the on-disk cache, defaulting to empty when loading fails; `Ignore` and
`Rebuild` start from an empty cache without reading the disk. -/
def loadedCacheState (mode : CacheMode) (diskCache : Option Cache) : Cache :=
  match mode with
  | .Use => diskCache.getD {}
  | .Ignore => {}
  | .Rebuild => {}

/-- State of the on-disk cache file `<root>/.knowledge_cache.json` when
the builder begins parsing, as a function of the cache mode: the body of
`build_from_directory_with_cache_opts` (lines 142-264) contains no
`remove_file` in any mode; the file is only rewritten by the best-effort
`save_cache` at build end (line 363). -/
def builderCacheFileBeforeParsing (mode : CacheMode) (onDisk : Option Cache) : Option Cache :=
  match mode with
  | .Use => onDisk
  | .Ignore => onDisk
  | .Rebuild => onDisk

/-- The CLI build command (src/app.rs lines 48-60): for `--rebuild` it
calls `cache::clear_cache(build_path)` — which removes the cache file
(utils/mod.rs lines 168-171) — before invoking the builder. -/
def runCliCacheFileBeforeBuild (mode : CacheMode) (onDisk : Option Cache) : Option Cache :=
  if mode = .Rebuild then none else onDisk

/-- The parallel parse stage (lines 217-264), sequentialized: read each
stale file (`fs::read_to_string(p)?`, whose io error converts through
`#[from]` into `KnowledgeGraphError::Io`), parse it (which cannot fail,
the `map_err` to `ParseError{file, ..}` being dead code), prepend the
synthetic file item, fix `item_count`, and emit the contains edges. -/
def parseStaleStep
    (acc : Except KnowledgeGraphError (List (FsPath × FileNode × List Relationship)))
    (df : DiskFile) :
    Except KnowledgeGraphError (List (FsPath × FileNode × List Relationship)) :=
  match acc with
  | .error e => .error e
  | .ok lst =>
    match df.read with
    | .error e => .error (.Io e)
    | .ok content =>
      match parse_file content df.path with
      | .error src => .error (.ParseError df.path src)
      | .ok node0 =>
        let items_with_file := mkFileItem node0.path :: node0.items
        let node := { node0 with
          items := items_with_file
          metrics := { node0.metrics with item_count := items_with_file.length } }
        .ok (lst ++ [(node.path, node, containsEdges node)])

def parseStale (to_parse : List DiskFile) :
    Except KnowledgeGraphError (List (FsPath × FileNode × List Relationship)) :=
  to_parse.foldl parseStaleStep (.ok [])

/-- Pruning (lines 177-183): in `Use` mode, drop cache entries whose
paths are not in the discovery set. -/
def prunedCache (mode : CacheMode) (cache_state : Cache) (disk : List DiskFile) : Cache :=
  if mode = .Use then
    { entries := cache_state.entries.filter (fun e => e.1 ∈ disk.map (·.path)) }
  else cache_state

/-- Partition of the discovered files into cache-reused nodes and files
to parse (lines 185-214): an entry is reused only in `Use` mode when its
stored metadata equals the stat result; reused nodes are keyed by the
cached `node.path` and their contains edges are regenerated. -/
def partitionStep (mode : CacheMode) (cache1 : Cache)
    (acc : List (FsPath × FileNode × List Relationship) × List DiskFile) (df : DiskFile) :
    List (FsPath × FileNode × List Relationship) × List DiskFile :=
  if mode = .Use then
    match alookup cache1.entries df.path with
    | some entry =>
      if entry.meta = df.meta then
        (acc.1 ++ [(entry.node.path, entry.node, containsEdges entry.node)], acc.2)
      else (acc.1, acc.2 ++ [df])
    | none => (acc.1, acc.2 ++ [df])
  else (acc.1, acc.2 ++ [df])

def partitionReuse (mode : CacheMode) (cache1 : Cache) (disk : List DiskFile) :
    List (FsPath × FileNode × List Relationship) × List DiskFile :=
  disk.foldl (partitionStep mode cache1) ([], [])

/-- `build_from_directory_with_cache_opts` (lines 142-365), over a
modelled disk: `disk` is the discovery result together with each file's
stat metadata and read outcome, `diskCache` the parsed on-disk cache (or
`none`), and `now` the wall-clock timestamp string.  The cache save at
the end is an external best-effort effect with no bearing on the
returned graph. -/
def buildGraph (mode : CacheMode) (diskCache : Option Cache) (disk : List DiskFile)
    (now : String) : Except KnowledgeGraphError KnowledgeGraph :=
  let part := partitionReuse mode (prunedCache mode (loadedCacheState mode diskCache) disk) disk
  match parseStale part.2 with
  | .error e => .error e
  | .ok parsed =>
    let files0 := part.1.foldl (fun m e => ainsert m e.1 e.2.1) []
    let files1 := parsed.foldl (fun m e => ainsert m e.1 e.2.1) files0
    let rels := part.1.flatMap (fun e => e.2.2) ++ parsed.flatMap (fun e => e.2.2)
    let g0 : KnowledgeGraph := { files := files1, relationships := rels }
    let segs := g0.files.foldl (fun m e => ainsert m e.1 (moduleSegmentsOf e.1)) []
    let g1 := { g0 with module_segments := segs }
    let g2 := { g1 with import_segments := computeImportSegments g1.files }
    let g3 := { g2 with metadata := { generated_at := now } }
    .ok (analyze_relationships disk g3)

/-! ### Graph serialization (save_json / load_json, lines 418-443)

`serde_json` round-trips every serialized field; the two
`#[serde(skip, default)]` fields (`import_segments` and `string_pool`)
are omitted from the output and reinstated with their `Default` values
on deserialization. -/

/-- The serialized form of a graph: exactly the non-skipped fields. -/
structure SavedGraph where
  files : List (FsPath × FileNode)
  relationships : List Relationship
  metadata : GraphMetadata
  module_parent : List (FsPath × FsPath)
  module_children : List (FsPath × List FsPath)
  module_segments : List (FsPath × List String)
deriving DecidableEq, Repr

/-- `KnowledgeGraph::save_json`: serialize the non-skipped fields. -/
def save_json (g : KnowledgeGraph) : SavedGraph :=
  { files := g.files
    relationships := g.relationships
    metadata := g.metadata
    module_parent := g.module_parent
    module_children := g.module_children
    module_segments := g.module_segments }

/-- `KnowledgeGraph::load_json`: deserialize the serialized fields; the
skipped `import_segments` comes back as its `Default` (empty). -/
def load_json (s : SavedGraph) : KnowledgeGraph :=
  { files := s.files
    relationships := s.relationships
    metadata := s.metadata
    module_parent := s.module_parent
    module_children := s.module_children
    module_segments := s.module_segments
    import_segments := [] }

/-! ### C1: graph save/load round trip -/

/-- A concrete graph whose single file has a non-empty import list. -/
def c1Graph : KnowledgeGraph :=
  { files := [(["src", "a.rs"],
      { path := ["src", "a.rs"]
        imports := [{ path := "a::b", «alias» := none }] })] }

/-- C1 counterexample: after a save-then-load round trip the
`import_segments` map is empty — it is not reconstructed — although the
file has non-empty imports and the builder would compute the entry
`[(["a","b"], none)]` for it. -/
theorem save_load_import_segments_counterexample :
    (load_json (save_json c1Graph)).import_segments = [] ∧
      alookup (computeImportSegments c1Graph.files) ["src", "a.rs"]
        = some [(["a", "b"], none)] ∧
      alookup (load_json (save_json c1Graph)).import_segments ["src", "a.rs"]
        ≠ alookup (computeImportSegments c1Graph.files) ["src", "a.rs"] := by
  refine ⟨rfl, by decide, by decide⟩

/-- C1 (amended): the save-then-load round trip preserves `files`,
`relationships`, `metadata`, `module_parent`, `module_children` and
`module_segments` exactly, while `import_segments` (a
`#[serde(skip, default)]` field) comes back empty rather than
reconstructed: consumers such as the resolver recompute segments from
each file's imports on demand. -/
theorem save_load_round_trip (g : KnowledgeGraph) :
    (load_json (save_json g)).files = g.files ∧
      (load_json (save_json g)).relationships = g.relationships ∧
      (load_json (save_json g)).metadata = g.metadata ∧
      (load_json (save_json g)).module_parent = g.module_parent ∧
      (load_json (save_json g)).module_children = g.module_children ∧
      (load_json (save_json g)).module_segments = g.module_segments ∧
      (load_json (save_json g)).import_segments = [] :=
  ⟨rfl, rfl, rfl, rfl, rfl, rfl, rfl⟩

/-! ### C2: read failures during build -/

/-- Discriminator for the claimed error shape
`KnowledgeGraphError::ParseError{..}`. -/
def isParseErrorResult {α : Type} : Except KnowledgeGraphError α → Bool
  | .error (.ParseError _ _) => true
  | _ => false

/-- A discovered file whose content read fails. -/
def c2FailingDisk : DiskFile := ⟨["x.rs"], {}, .error "permission denied"⟩

/-- C2 counterexample: when reading a discovered file fails, the whole
build fails — but with `KnowledgeGraphError::Io(cause)` (the io error
converted by the `?` operator through `#[from]`), not with
`ParseError{file, source: Io}` identifying the file as claimed. -/
theorem build_read_failure_counterexample :
    buildGraph CacheMode.Ignore none [c2FailingDisk] "0"
        = .error (.Io "permission denied") ∧
      isParseErrorResult (buildGraph CacheMode.Ignore none [c2FailingDisk] "0") = false := by
  constructor
  · rfl
  · rfl

theorem parseStaleStep_error_of_error (e : KnowledgeGraphError) (df : DiskFile) :
    parseStaleStep (.error e) df = .error e := rfl

theorem parseStale_foldl_error (l : List DiskFile) (e : KnowledgeGraphError) :
    l.foldl parseStaleStep (.error e) = .error e := by
  induction l with
  | nil => rfl
  | cons df l ih => exact ih

/-- One parse step only ever introduces `Io` errors: reading is the only
fallible operation and `parse_file` always returns `Ok`. -/
theorem parseStaleStep_error_is_io
    (acc : Except KnowledgeGraphError (List (FsPath × FileNode × List Relationship)))
    (df : DiskFile)
    (hacc : ∀ e, acc = .error e → ∃ c, e = .Io c) :
    ∀ e, parseStaleStep acc df = .error e → ∃ c, e = .Io c := by
  intro e h
  cases acc with
  | error e0 =>
    rw [parseStaleStep_error_of_error] at h
    injection h with h'
    exact hacc e (by rw [h'])
  | ok lst =>
    unfold parseStaleStep at h
    cases hr : df.read with
    | error c =>
      rw [hr] at h
      injection h with h'
      exact ⟨c, h'.symm⟩
    | ok content =>
      rw [hr] at h
      simp only [parse_file] at h
      cases h

/-- Any error the parse stage produces is the `Io` variant. -/
theorem parseStale_error_is_io {l : List DiskFile} {e : KnowledgeGraphError}
    (h : parseStale l = .error e) : ∃ c, e = .Io c := by
  unfold parseStale at h
  suffices hgen : ∀ (l : List DiskFile)
      (acc : Except KnowledgeGraphError (List (FsPath × FileNode × List Relationship))),
      (∀ e0, acc = .error e0 → ∃ c, e0 = .Io c) →
      ∀ e0, l.foldl parseStaleStep acc = .error e0 → ∃ c, e0 = .Io c by
    exact hgen l (.ok []) (by intro e0 h0; cases h0) e h
  intro l
  induction l with
  | nil =>
    intro acc hacc e0 h0
    exact hacc e0 h0
  | cons df l ih =>
    intro acc hacc e0 h0
    exact ih (parseStaleStep acc df) (parseStaleStep_error_is_io acc df hacc) e0 h0

/-- A file with a failing read among the stale files fails the fold with
an `Io` error. -/
theorem parseStale_fails_of_read_error {l : List DiskFile} {df : DiskFile}
    (hmem : df ∈ l) (hread : ∃ c0, df.read = .error c0) :
    ∃ c, parseStale l = .error (.Io c) := by
  unfold parseStale
  suffices hgen : ∀ (l : List DiskFile)
      (acc : Except KnowledgeGraphError (List (FsPath × FileNode × List Relationship))),
      df ∈ l →
      (∀ e0, acc = .error e0 → ∃ c, e0 = .Io c) →
      ∃ c, l.foldl parseStaleStep acc = .error (.Io c) by
    exact hgen l (.ok []) hmem (by intro e0 h0; cases h0)
  intro l
  induction l with
  | nil =>
    intro acc hm
    cases hm
  | cons df1 l ih =>
    intro acc hm hacc
    rcases List.mem_cons.mp hm with hm1 | hm2
    · subst hm1
      cases hac : acc with
      | error e0 =>
        obtain ⟨c, hc⟩ := hacc e0 hac
        subst hc
        refine ⟨c, ?_⟩
        simp only [List.foldl_cons, parseStaleStep_error_of_error]
        exact parseStale_foldl_error l _
      | ok lst =>
        obtain ⟨c0, hc0⟩ := hread
        refine ⟨c0, ?_⟩
        simp only [List.foldl_cons]
        have hstep : parseStaleStep (.ok lst) df = .error (.Io c0) := by
          unfold parseStaleStep
          rw [hc0]
        rw [hstep]
        exact parseStale_foldl_error l _
    · exact ih (parseStaleStep acc df1) hm2 (parseStaleStep_error_is_io acc df1 hacc)

/-- C2 (amended): when reading any stale (to-parse) file's content
fails, the whole build fails — but the error is
`KnowledgeGraphError::Io(cause)`, produced by the `#[from]` conversion
of the `?` operator on `fs::read_to_string`, and it does not name the
file; the claimed `ParseError{file, source: Io}` shape never occurs
(every build error is the `Io` variant). -/
theorem buildGraph_read_failure (mode : CacheMode) (diskCache : Option Cache)
    (disk : List DiskFile) (now : String) :
    (∀ e, buildGraph mode diskCache disk now = .error e → ∃ c, e = .Io c) ∧
    (∀ df ∈ (partitionReuse mode (prunedCache mode (loadedCacheState mode diskCache) disk) disk).2,
      (∃ c0, df.read = .error c0) →
      ∃ c, buildGraph mode diskCache disk now = .error (.Io c)) := by
  constructor
  · intro e h
    simp only [buildGraph] at h
    cases hp : parseStale
        (partitionReuse mode (prunedCache mode (loadedCacheState mode diskCache) disk) disk).2 with
    | error e1 =>
      rw [hp] at h
      injection h with h'
      exact h' ▸ parseStale_error_is_io hp
    | ok parsed =>
      rw [hp] at h
      cases h
  · intro df hmem hread
    obtain ⟨c, hc⟩ := parseStale_fails_of_read_error hmem hread
    refine ⟨c, ?_⟩
    simp only [buildGraph, hc]

/-- Witness for the amended C2 theorem: a concrete one-file build whose
read fails produces an `Io` error. -/
theorem buildGraph_read_failure_witness :
    ∃ c, buildGraph CacheMode.Ignore none [c2FailingDisk] "0"
      = .error (.Io c) :=
  (buildGraph_read_failure CacheMode.Ignore none [c2FailingDisk] "0").2 c2FailingDisk
    (by decide) ⟨"permission denied", rfl⟩

/-! ### C3: `Rebuild` and the on-disk cache file -/

/-- A concrete non-empty on-disk cache. -/
def c3Cache : Cache := { entries := [(["x.rs"], {})] }

/-- C3 counterexample: invoking the builder itself with `Rebuild` does
not delete the on-disk cache file before building — its pre-parse state
still holds the pre-existing cache; the deletion claimed by the spec is
not performed inside `build_from_directory_with_cache_opts`. -/
theorem rebuild_no_delete_counterexample :
    builderCacheFileBeforeParsing CacheMode.Rebuild (some c3Cache) = some c3Cache ∧
      builderCacheFileBeforeParsing CacheMode.Rebuild (some c3Cache) ≠ none := by
  exact ⟨rfl, by decide⟩

/-- C3 (amended): inside `build_from_directory_with_cache_opts`,
`Rebuild` behaves exactly like `Ignore` — the pre-existing cache is
never consulted (both start from an empty cache state) and the produced
graph is identical — and the builder never deletes the cache file; the
deletion of `<root>/.knowledge_cache.json` in `Rebuild` mode is
performed by the CLI build command (`run_cli`) via `cache::clear_cache`
before the builder is invoked. -/
theorem rebuild_like_ignore (diskCache : Option Cache) (disk : List DiskFile) (now : String) :
    loadedCacheState CacheMode.Rebuild diskCache = loadedCacheState CacheMode.Ignore diskCache ∧
      buildGraph CacheMode.Rebuild diskCache disk now
        = buildGraph CacheMode.Ignore diskCache disk now ∧
      builderCacheFileBeforeParsing CacheMode.Rebuild diskCache = diskCache ∧
      runCliCacheFileBeforeBuild CacheMode.Rebuild diskCache = none := by
  refine ⟨rfl, ?_, rfl, rfl⟩
  rfl

/-! ### C6: strength values -/

/-- The only strengths ever stored by the builder and analyses. -/
def strengthOk (r : Relationship) : Prop :=
  r.strength = 1 ∨ r.strength = mkRat 8 10 ∨ r.strength = mkRat 7 10 ∨ r.strength = mkRat 5 10

theorem containsEdges_strength {node : FileNode} {r : Relationship}
    (h : r ∈ containsEdges node) : r.strength = 1 := by
  unfold containsEdges at h
  obtain ⟨it, -, he⟩ := List.mem_map.mp h
  subst he
  rfl

theorem hierarchyStep_strength (fli : List (FsPath × ItemId)) (itp : List (ItemId × FsPath))
    (st : List Relationship × List (FsPath × FsPath) × List (FsPath × List FsPath)) (p : FsPath)
    (hst : ∀ r ∈ st.1, r.strength = 1) :
    ∀ r ∈ (hierarchyStep fli itp st p).1, r.strength = 1 := by
  unfold hierarchyStep
  repeat' split
  all_goals intro r hr
  all_goals try exact hst r hr
  all_goals
    rcases List.mem_append.mp hr with h1 | h1
  all_goals try exact hst r h1
  all_goals
    simp only [List.mem_singleton] at h1
  all_goals subst h1
  all_goals rfl


theorem partitionStep_edges (mode : CacheMode) (c : Cache)
    (acc : List (FsPath × FileNode × List Relationship) × List DiskFile) (df : DiskFile)
    (hacc : ∀ t ∈ acc.1, t.2.2 = containsEdges t.2.1) :
    ∀ t ∈ (partitionStep mode c acc df).1, t.2.2 = containsEdges t.2.1 := by
  unfold partitionStep
  repeat' split
  all_goals intro t ht
  all_goals try exact hacc t ht
  rcases List.mem_append.mp ht with h1 | h1
  · exact hacc t h1
  · simp only [List.mem_singleton] at h1
    subst h1
    rfl

theorem partitionReuse_edges (mode : CacheMode) (c : Cache) (disk : List DiskFile) :
    ∀ t ∈ (partitionReuse mode c disk).1, t.2.2 = containsEdges t.2.1 := by
  unfold partitionReuse
  suffices hgen : ∀ (l : List DiskFile)
      (acc : List (FsPath × FileNode × List Relationship) × List DiskFile),
      (∀ t ∈ acc.1, t.2.2 = containsEdges t.2.1) →
      ∀ t ∈ (l.foldl (partitionStep mode c) acc).1, t.2.2 = containsEdges t.2.1 by
    exact hgen disk ([], []) (by intro t ht; cases ht)
  intro l
  induction l with
  | nil => exact fun acc hacc => hacc
  | cons df l ih =>
    intro acc hacc
    exact ih _ (partitionStep_edges mode c acc df hacc)

theorem parseStale_edges {l : List DiskFile}
    {parsed : List (FsPath × FileNode × List Relationship)}
    (h : parseStale l = .ok parsed) :
    ∀ t ∈ parsed, t.2.2 = containsEdges t.2.1 := by
  unfold parseStale at h
  suffices hgen : ∀ (l : List DiskFile)
      (acc : Except KnowledgeGraphError (List (FsPath × FileNode × List Relationship))),
      (∀ lst, acc = .ok lst → ∀ t ∈ lst, t.2.2 = containsEdges t.2.1) →
      ∀ lst, l.foldl parseStaleStep acc = .ok lst →
        ∀ t ∈ lst, t.2.2 = containsEdges t.2.1 by
    refine hgen l (.ok []) ?_ parsed h
    intro lst hl
    injection hl with hl'
    subst hl'
    intro t ht
    cases ht
  intro l
  induction l with
  | nil => exact fun acc hacc => hacc
  | cons df l ih =>
    intro acc hacc
    refine ih _ ?_
    intro lst hl t ht
    cases hac : acc with
    | error e =>
      rw [hac, parseStaleStep_error_of_error] at hl
      cases hl
    | ok lst0 =>
      rw [hac] at hl
      unfold parseStaleStep at hl
      cases hr : df.read with
      | error c =>
        rw [hr] at hl
        cases hl
      | ok content =>
        rw [hr] at hl
        simp only [parse_file, Except.ok.injEq] at hl
        subst hl
        rcases List.mem_append.mp ht with h1 | h1
        · exact hacc lst0 hac t h1
        · simp only [List.mem_singleton] at h1
          subst h1
          rfl

theorem hierarchyState_strength (g : KnowledgeGraph) :
    ∀ r ∈ (hierarchyState g).1, r.strength = 1 := by
  unfold hierarchyState
  suffices hgen : ∀ (paths : List FsPath)
      (st : List Relationship × List (FsPath × FsPath) × List (FsPath × List FsPath)),
      (∀ r ∈ st.1, r.strength = 1) →
      ∀ r ∈ (paths.foldl (hierarchyStep (fileLevelIdMap g) (idToPathMap g)) st).1,
        r.strength = 1 by
    exact hgen _ ([], [], []) (by intro r hr; cases hr)
  intro paths
  induction paths with
  | nil => exact fun st hst => hst
  | cons p paths ih =>
    intro st hst
    exact ih _ (hierarchyStep_strength _ _ st p hst)

theorem usesEdgesForFile_strength (g : KnowledgeGraph) (res : Resolver) (path : FsPath)
    (file : FileNode) :
    ∀ r ∈ usesEdgesForFile g res path file, r.strength = 1 ∨ r.strength = mkRat 8 10 := by
  unfold usesEdgesForFile
  split
  · intro r hr
    cases hr
  · intro r hr
    obtain ⟨imp, -, hr2⟩ := List.mem_flatMap.mp hr
    obtain ⟨tgt, -, hsome⟩ := List.mem_filterMap.mp hr2
    split at hsome
    · cases hsome
    · injection hsome with he
      subst he
      by_cases hm : ((if is_file_level_module g res tgt then "import-module"
          else "import-item") = "import-item")
      · left
        simp only [hm, if_true]
      · right
        simp only [hm, if_false]

theorem usesEdges_strength (g : KnowledgeGraph) :
    ∀ r ∈ usesEdges g, r.strength = 1 ∨ r.strength = mkRat 8 10 := by
  unfold usesEdges
  intro r hr
  obtain ⟨e, -, hr2⟩ := List.mem_flatMap.mp hr
  exact usesEdgesForFile_strength g _ e.1 e.2 r hr2

theorem pushCallEdges_strength (file_id : ItemId) (ctype : String) (strength : ℚ)
    (ctx : String) (targets : List ItemId)
    (st : List (ItemId × ItemId) × List Relationship)
    (hst : ∀ r ∈ st.2, r.strength = mkRat 7 10 ∨ r.strength = mkRat 5 10)
    (hs : strength = mkRat 7 10 ∨ strength = mkRat 5 10) :
    ∀ r ∈ (pushCallEdges file_id ctype strength ctx targets st).2,
      r.strength = mkRat 7 10 ∨ r.strength = mkRat 5 10 := by
  unfold pushCallEdges
  induction targets generalizing st with
  | nil => exact hst
  | cons tgt targets ih =>
    simp only [List.foldl_cons]
    apply ih
    split
    · exact hst
    · intro r hr
      rcases List.mem_append.mp hr with h1 | h1
      · exact hst r h1
      · simp only [List.mem_singleton] at h1
        subst h1
        exact hs

theorem callsP1_strength (g : KnowledgeGraph) (res : Resolver)
    (func_index : List (String × List ItemId)) (path : FsPath) (file_id : ItemId)
    (ms : List (Nat × List (List Char))) (st : List (ItemId × ItemId) × List Relationship)
    (hst : ∀ r ∈ st.2, r.strength = mkRat 7 10 ∨ r.strength = mkRat 5 10) :
    ∀ r ∈ (callsP1 g res func_index path file_id ms st).2,
      r.strength = mkRat 7 10 ∨ r.strength = mkRat 5 10 := by
  unfold callsP1
  induction ms generalizing st with
  | nil => exact hst
  | cons m ms ih =>
    simp only [List.foldl_cons]
    exact ih _ (pushCallEdges_strength _ _ _ _ _ _ hst (Or.inl rfl))

theorem callsP2_strength (func_index : List (String × List ItemId)) (content : List Char)
    (file_id : ItemId) (ms : List (Nat × List Char))
    (st : List (ItemId × ItemId) × List Relationship)
    (hst : ∀ r ∈ st.2, r.strength = mkRat 7 10 ∨ r.strength = mkRat 5 10) :
    ∀ r ∈ (callsP2 func_index content file_id ms st).2,
      r.strength = mkRat 7 10 ∨ r.strength = mkRat 5 10 := by
  unfold callsP2
  induction ms generalizing st with
  | nil => exact hst
  | cons m ms ih =>
    simp only [List.foldl_cons]
    apply ih
    split
    · exact hst
    · split
      · exact pushCallEdges_strength _ _ _ _ _ _ hst (Or.inr rfl)
      · exact hst

theorem callsForFile_strength (g : KnowledgeGraph) (res : Resolver)
    (func_index : List (String × List ItemId)) (disk : List DiskFile) (path : FsPath)
    (file : FileNode) :
    ∀ r ∈ callsForFile g res func_index disk path file,
      r.strength = mkRat 7 10 ∨ r.strength = mkRat 5 10 := by
  unfold callsForFile
  split
  · intro r hr
    cases hr
  · split
    · intro r hr
      cases hr
    · exact callsP2_strength _ _ _ _ _
        (callsP1_strength _ _ _ _ _ _ _ (by intro r hr; cases hr))

theorem callsEdges_strength (disk : List DiskFile) (g : KnowledgeGraph) :
    ∀ r ∈ callsEdges disk g, r.strength = mkRat 7 10 ∨ r.strength = mkRat 5 10 := by
  unfold callsEdges
  intro r hr
  obtain ⟨e, -, hr2⟩ := List.mem_flatMap.mp hr
  exact callsForFile_strength g _ _ disk e.1 e.2 r hr2

theorem analyze_relationships_strength (disk : List DiskFile) (g : KnowledgeGraph)
    (hg : ∀ r ∈ g.relationships, strengthOk r) :
    ∀ r ∈ (analyze_relationships disk g).relationships, strengthOk r := by
  intro r hr
  have hr1 : r ∈ (analyze_import_uses (analyze_module_hierarchy g)).relationships
      ++ callsEdges disk (analyze_import_uses (analyze_module_hierarchy g)) := hr
  rcases List.mem_append.mp hr1 with h1 | h1
  · have h2 : r ∈ (analyze_module_hierarchy g).relationships
        ++ usesEdges (analyze_module_hierarchy g) := h1
    rcases List.mem_append.mp h2 with h3 | h3
    · have h4 : r ∈ g.relationships ++ (hierarchyState g).1 := h3
      rcases List.mem_append.mp h4 with h5 | h5
      · exact hg r h5
      · exact Or.inl (hierarchyState_strength g r h5)
    · rcases usesEdges_strength _ r h3 with h | h
      · exact Or.inl h
      · exact Or.inr (Or.inl h)
  · rcases callsEdges_strength disk _ r h1 with h | h
    · exact Or.inr (Or.inr (Or.inl h))
    · exact Or.inr (Or.inr (Or.inr h))

/-- C6: after a successful build every relationship's strength is one of
the literals 1.0 (contains edges and import-item uses), 0.8
(import-module uses), 0.7 (path calls) and 0.5 (heuristic calls); in
particular it lies in the closed interval [0.5, 1.0]. -/
theorem buildGraph_strength {mode : CacheMode} {diskCache : Option Cache}
    {disk : List DiskFile} {now : String} {g : KnowledgeGraph}
    (hbuild : buildGraph mode diskCache disk now = .ok g) :
    ∀ r ∈ g.relationships,
      (r.strength = 1 ∨ r.strength = 0.8 ∨ r.strength = 0.7 ∨ r.strength = 0.5) ∧
        (1 / 2 ≤ r.strength ∧ r.strength ≤ 1) := by
  intro r hr
  have h8 : mkRat 8 10 = (0.8 : ℚ) := by
    rw [Rat.mkRat_eq_div]
    norm_num
  have h7 : mkRat 7 10 = (0.7 : ℚ) := by
    rw [Rat.mkRat_eq_div]
    norm_num
  have h5 : mkRat 5 10 = (0.5 : ℚ) := by
    rw [Rat.mkRat_eq_div]
    norm_num
  suffices hok : strengthOk r by
    rcases hok with h | h | h | h
    · exact ⟨Or.inl h, by rw [h]; norm_num⟩
    · rw [h8] at h
      exact ⟨Or.inr (Or.inl h), by rw [h]; norm_num⟩
    · rw [h7] at h
      exact ⟨Or.inr (Or.inr (Or.inl h)), by rw [h]; norm_num⟩
    · rw [h5] at h
      exact ⟨Or.inr (Or.inr (Or.inr h)), by rw [h]; norm_num⟩
  simp only [buildGraph] at hbuild
  cases hp : parseStale
      (partitionReuse mode (prunedCache mode (loadedCacheState mode diskCache) disk) disk).2 with
  | error e =>
    rw [hp] at hbuild
    cases hbuild
  | ok parsed =>
    rw [hp] at hbuild
    injection hbuild with hb
    subst hb
    refine analyze_relationships_strength disk _ ?_ r hr
    intro r0 hr0
    rcases List.mem_append.mp hr0 with h1 | h1
    · obtain ⟨t, ht, hmem⟩ := List.mem_flatMap.mp h1
      rw [partitionReuse_edges mode _ disk t ht] at hmem
      exact Or.inl (containsEdges_strength hmem)
    · obtain ⟨t, ht, hmem⟩ := List.mem_flatMap.mp h1
      rw [parseStale_edges hp t ht] at hmem
      exact Or.inl (containsEdges_strength hmem)

/-- A one-file build used as the C6 witness input. -/
def c6Disk : List DiskFile := [⟨["a.rs"], {}, .ok "fn f() {}\n".toList⟩]

/-- The contains edge that build produces. -/
def c6Edge : Relationship :=
  { from_item := "file:a.rs"
    to_item := "fn:f:1"
    relationship_type := .Contains "file_contains"
    strength := 1
    context := "auto" }

/-- Witness for C6 at a concrete build. -/
theorem buildGraph_strength_witness :
    (c6Edge.strength = 1 ∨ c6Edge.strength = 0.8 ∨ c6Edge.strength = 0.7 ∨
        c6Edge.strength = 0.5) ∧
      (1 / 2 ≤ c6Edge.strength ∧ c6Edge.strength ≤ 1) :=
  @buildGraph_strength CacheMode.Ignore none c6Disk "0"
    ((buildGraph CacheMode.Ignore none c6Disk "0").toOption.getD {})
    (by decide) c6Edge (by decide)

/-! ### C7: the synthetic file-level item -/

theorem alookup_mem {κ ν : Type} [DecidableEq κ] {l : List (κ × ν)} {k : κ} {v : ν}
    (h : alookup l k = some v) : (k, v) ∈ l := by
  unfold alookup at h
  cases hf : l.find? (fun e => e.1 = k) with
  | none => rw [hf] at h; cases h
  | some e =>
    rw [hf] at h
    injection h with h'
    have hmem := List.mem_of_find?_eq_some hf
    have hpred := List.find?_some hf
    simp only [decide_eq_true_eq] at hpred
    have : (k, v) = e := by
      rw [← hpred, ← h']
    rw [this]
    exact hmem

theorem ainsert_forall {κ ν : Type} [DecidableEq κ] {P : κ × ν → Prop}
    {l : List (κ × ν)} {k : κ} {v : ν}
    (hl : ∀ e ∈ l, P e) (hkv : P (k, v)) : ∀ e ∈ ainsert l k v, P e := by
  unfold ainsert
  split
  · intro e he
    obtain ⟨e0, he0, hfe⟩ := List.mem_map.mp he
    by_cases hc : e0.1 = k
    · rw [if_pos hc] at hfe
      rw [← hfe]
      exact hkv
    · rw [if_neg hc] at hfe
      rw [← hfe]
      exact hl e0 he0
  · intro e he
    rcases List.mem_append.mp he with h1 | h1
    · exact hl e h1
    · simp only [List.mem_singleton] at h1
      rw [h1]
      exact hkv

/-- Every reused node in the partition is a pruned-cache entry's node,
keyed by that node's own path. -/
theorem partitionReuse_origin (mode : CacheMode) (c : Cache) (disk : List DiskFile) :
    ∀ t ∈ (partitionReuse mode c disk).1,
      ∃ e ∈ c.entries, t.1 = e.2.node.path ∧ t.2.1 = e.2.node := by
  unfold partitionReuse
  suffices hgen : ∀ (l : List DiskFile)
      (acc : List (FsPath × FileNode × List Relationship) × List DiskFile),
      (∀ t ∈ acc.1, ∃ e ∈ c.entries, t.1 = e.2.node.path ∧ t.2.1 = e.2.node) →
      ∀ t ∈ (l.foldl (partitionStep mode c) acc).1,
        ∃ e ∈ c.entries, t.1 = e.2.node.path ∧ t.2.1 = e.2.node by
    exact hgen disk ([], []) (by intro t ht; cases ht)
  intro l
  induction l with
  | nil => exact fun acc hacc => hacc
  | cons df l ih =>
    intro acc hacc
    refine ih _ ?_
    intro t ht
    revert ht
    unfold partitionStep
    split
    · cases hlk : alookup c.entries df.path with
      | none =>
        simp only [hlk]
        exact fun ht => hacc t ht
      | some entry =>
        simp only [hlk]
        split
        · intro ht
          rcases List.mem_append.mp ht with h1 | h1
          · exact hacc t h1
          · simp only [List.mem_singleton] at h1
            subst h1
            exact ⟨(df.path, entry), alookup_mem hlk, rfl, rfl⟩
        · exact fun ht => hacc t ht
    · exact fun ht => hacc t ht

/-- Every freshly parsed node starts with the synthetic file item and is
keyed by its own path. -/
theorem parseStale_synthetic {l : List DiskFile}
    {parsed : List (FsPath × FileNode × List Relationship)}
    (h : parseStale l = .ok parsed) :
    ∀ t ∈ parsed, t.2.1.path = t.1 ∧ t.2.1.items.head? = some (mkFileItem t.1) := by
  unfold parseStale at h
  suffices hgen : ∀ (l : List DiskFile)
      (acc : Except KnowledgeGraphError (List (FsPath × FileNode × List Relationship))),
      (∀ lst, acc = .ok lst →
        ∀ t ∈ lst, t.2.1.path = t.1 ∧ t.2.1.items.head? = some (mkFileItem t.1)) →
      ∀ lst, l.foldl parseStaleStep acc = .ok lst →
        ∀ t ∈ lst, t.2.1.path = t.1 ∧ t.2.1.items.head? = some (mkFileItem t.1) by
    refine hgen l (.ok []) ?_ parsed h
    intro lst hl
    injection hl with hl'
    subst hl'
    intro t ht
    cases ht
  intro l
  induction l with
  | nil => exact fun acc hacc => hacc
  | cons df l ih =>
    intro acc hacc
    refine ih _ ?_
    intro lst hl t ht
    cases hac : acc with
    | error e =>
      rw [hac, parseStaleStep_error_of_error] at hl
      cases hl
    | ok lst0 =>
      rw [hac] at hl
      unfold parseStaleStep at hl
      cases hr : df.read with
      | error c =>
        rw [hr] at hl
        cases hl
      | ok content =>
        rw [hr] at hl
        simp only [parse_file, Except.ok.injEq] at hl
        subst hl
        rcases List.mem_append.mp ht with h1 | h1
        · exact hacc lst0 hac t h1
        · simp only [List.mem_singleton] at h1
          subst h1
          exact ⟨rfl, rfl⟩

theorem foldl_ainsert_forall {P : FsPath × FileNode → Prop}
    (l : List (FsPath × FileNode × List Relationship)) (init : List (FsPath × FileNode))
    (hinit : ∀ e ∈ init, P e) (hl : ∀ t ∈ l, P (t.1, t.2.1)) :
    ∀ e ∈ l.foldl (fun m t => ainsert m t.1 t.2.1) init, P e := by
  induction l generalizing init with
  | nil => exact hinit
  | cons t l ih =>
    simp only [List.foldl_cons]
    exact ih _ (ainsert_forall hinit (hl t (List.mem_cons_self t l)))
      (fun t2 ht2 => hl t2 (List.mem_cons_of_mem t ht2))

/-- C7 (amended): after a successful build, every file node's item list
begins with the synthetic file-level module item (so it is non-empty),
unconditionally for freshly parsed nodes, and for cache-reused nodes
under the proviso that the loaded cache's entries carry nodes that are
keyed by their own path and begin with the synthetic item — which is how
every cache written by a build stores them.  The builder itself never
re-validates reused nodes. -/
theorem buildGraph_synthetic_first {mode : CacheMode} {diskCache : Option Cache}
    {disk : List DiskFile} {now : String} {g : KnowledgeGraph}
    (hbuild : buildGraph mode diskCache disk now = .ok g)
    (hcache : ∀ e ∈ (loadedCacheState mode diskCache).entries,
      e.2.node.path = e.1 ∧ e.2.node.items.head? = some (mkFileItem e.1)) :
    ∀ e ∈ g.files, e.2.items.head? = some (mkFileItem e.1) := by
  simp only [buildGraph] at hbuild
  cases hp : parseStale
      (partitionReuse mode (prunedCache mode (loadedCacheState mode diskCache) disk) disk).2 with
  | error e =>
    rw [hp] at hbuild
    cases hbuild
  | ok parsed =>
    rw [hp] at hbuild
    injection hbuild with hb
    subst hb
    intro e he
    have he1 : e ∈ parsed.foldl (fun m t => ainsert m t.1 t.2.1)
        ((partitionReuse mode (prunedCache mode (loadedCacheState mode diskCache) disk)
          disk).1.foldl (fun m t => ainsert m t.1 t.2.1) []) := he
    refine foldl_ainsert_forall
      (P := fun e => e.2.items.head? = some (mkFileItem e.1)) parsed _ ?_ ?_ e he1
    · refine foldl_ainsert_forall
        (P := fun e => e.2.items.head? = some (mkFileItem e.1)) _ []
        (by intro e2 he2; cases he2) ?_
      intro t ht
      obtain ⟨ce, hce, ht1, ht2⟩ :=
        partitionReuse_origin mode (prunedCache mode (loadedCacheState mode diskCache) disk)
          disk t ht
      have hce2 : ce ∈ (loadedCacheState mode diskCache).entries := by
        revert hce
        unfold prunedCache
        split
        · intro hce
          exact (List.mem_filter.mp hce).1
        · exact fun hce => hce
      obtain ⟨hpath, hhead⟩ := hcache ce hce2
      show t.2.1.items.head? = some (mkFileItem t.1)
      rw [ht2, ht1, hhead, hpath]
    · intro t ht
      exact (parseStale_synthetic hp t ht).2

/-- A cache-reused input for the C7 witness: an empty loaded cache and
one parsed file. -/
def c7GoodDisk : List DiskFile := [⟨["src", "lib.rs"], {}, .ok "pub fn go() {}\n".toList⟩]

/-- Witness for the amended C7 theorem: a concrete build (with no usable
cache) in which the single file's first item is the synthetic item. -/
theorem buildGraph_synthetic_first_witness :
    (["src", "lib.rs"],
        ((buildGraph CacheMode.Use none c7GoodDisk "0").toOption.getD {}).files.head?.getD
          (["src", "lib.rs"], {}) |>.2).2.items.head?
      = some (mkFileItem ["src", "lib.rs"]) := by
  have h := @buildGraph_synthetic_first CacheMode.Use none c7GoodDisk "0"
    ((buildGraph CacheMode.Use none c7GoodDisk "0").toOption.getD {})
    (by decide) (by intro e he; cases he)
  exact h _ (by decide)

/-- A poisoned on-disk cache: the entry's metadata matches the file but
its node has an empty item list (no synthetic item). -/
def c7PoisonCache : Cache :=
  { entries := [(["x.rs"], { meta := {}, node := { path := ["x.rs"], items := [] } })] }

def c7PoisonDisk : List DiskFile := [⟨["x.rs"], {}, .ok []⟩]

/-- C7 counterexample: with a matching but malformed cache entry the
build succeeds and reuses the cached node verbatim, producing a file
whose item list is empty — the claimed invariant fails for cache-reused
nodes, because the builder trusts the cache without re-validating it. -/
theorem build_cache_poison_counterexample :
    (buildGraph CacheMode.Use (some c7PoisonCache) c7PoisonDisk "0").isOk = true ∧
      ¬ (∀ e ∈ ((buildGraph CacheMode.Use (some c7PoisonCache) c7PoisonDisk "0").toOption.getD
          {}).files, e.2.items ≠ [] ∧ e.2.items.head? = some (mkFileItem e.1)) := by
  constructor
  · decide
  · decide

/-! ### C8: the call-site exclusion filter -/

/-- Discriminator for `Calls` edges of either call type. -/
def isCallsRel : RelationshipType → Bool
  | .Calls _ => true
  | _ => false

/-- All textual call-match sites of a content: the qualified-chain (P1)
sites with their joined chain text, and the simple-name (P2) sites. -/
def callSiteTexts (content : List Char) : List (Nat × String) :=
  (scanFree p1At content).map (fun m => (m.1, String.intercalate "::" (m.2.map String.mk)))
    ++ (scanFree p2At content).map (fun m => (m.1, String.mk m.2))

theorem pushCallEdges_origin (file_id : ItemId) (ctype : String) (strength : ℚ)
    (ctx : String) (targets : List ItemId) (st : List (ItemId × ItemId) × List Relationship) :
    ∀ r ∈ (pushCallEdges file_id ctype strength ctx targets st).2,
      r ∈ st.2 ∨ (r.relationship_type = .Calls ctype ∧ r.context = ctx) := by
  unfold pushCallEdges
  induction targets generalizing st with
  | nil => exact fun r hr => Or.inl hr
  | cons tgt targets ih =>
    intro r hr
    simp only [List.foldl_cons] at hr
    rcases ih _ r hr with h1 | h1
    · revert h1
      split
      · exact fun h1 => Or.inl h1
      · intro h1
        rcases List.mem_append.mp h1 with h2 | h2
        · exact Or.inl h2
        · simp only [List.mem_singleton] at h2
          subst h2
          exact Or.inr ⟨rfl, rfl⟩
    · exact Or.inr h1

theorem callsP1_origin (g : KnowledgeGraph) (res : Resolver)
    (func_index : List (String × List ItemId)) (path : FsPath) (file_id : ItemId)
    (ms : List (Nat × List (List Char))) (st : List (ItemId × ItemId) × List Relationship) :
    ∀ r ∈ (callsP1 g res func_index path file_id ms st).2,
      r ∈ st.2 ∨ r.relationship_type = .Calls "path" := by
  unfold callsP1
  induction ms generalizing st with
  | nil => exact fun r hr => Or.inl hr
  | cons m ms ih =>
    intro r hr
    simp only [List.foldl_cons] at hr
    rcases ih _ r hr with h1 | h1
    · rcases pushCallEdges_origin _ _ _ _ _ _ r h1 with h2 | h2
      · exact Or.inl h2
      · exact Or.inr h2.1
    · exact Or.inr h1

theorem callsP2_origin (func_index : List (String × List ItemId)) (content : List Char)
    (file_id : ItemId) (ms : List (Nat × List Char))
    (st : List (ItemId × ItemId) × List Relationship) :
    ∀ r ∈ (callsP2 func_index content file_id ms st).2,
      r ∈ st.2 ∨ ∃ m ∈ ms, p2Excluded content m.1 = false ∧
        r.relationship_type = .Calls "heuristic" ∧ r.context = String.mk m.2 := by
  unfold callsP2
  induction ms generalizing st with
  | nil => exact fun r hr => Or.inl hr
  | cons m ms ih =>
    intro r hr
    simp only [List.foldl_cons] at hr
    have hmono : ∀ m2 (hm2 : m2 ∈ ms) (h : p2Excluded content m2.1 = false ∧
        r.relationship_type = .Calls "heuristic" ∧ r.context = String.mk m2.2),
        ∃ m3 ∈ m :: ms, p2Excluded content m3.1 = false ∧
          r.relationship_type = .Calls "heuristic" ∧ r.context = String.mk m3.2 :=
      fun m2 hm2 h => ⟨m2, List.mem_cons_of_mem m hm2, h⟩
    rcases ih _ r hr with h1 | h1
    · by_cases hexc : p2Excluded content m.1 = true
      · rw [if_pos hexc] at h1
        exact Or.inl h1
      · rw [if_neg hexc] at h1
        revert h1
        split
        · intro h1
          rcases pushCallEdges_origin _ _ _ _ _ _ r h1 with h2 | h2
          · exact Or.inl h2
          · exact Or.inr ⟨m, List.mem_cons_self m ms,
              by simpa using hexc, h2.1, h2.2⟩
        · exact fun h1 => Or.inl h1
    · obtain ⟨m2, hm2, h⟩ := h1
      exact Or.inr (hmono m2 hm2 h)

/-- C8 (amended): the `!`/definition-keyword exclusion filter applies
only to simple-name (P2) matches: every `Calls{heuristic}` edge a file
contributes originates from a P2 match site that passes the filter, with
the site's identifier as context.  `Calls{path}` edges from qualified
chains are not subject to the filter (and the same contexts can also
occur at excluded sites). -/
theorem calls_exclusion_amended (g : KnowledgeGraph) (res : Resolver)
    (func_index : List (String × List ItemId)) (disk : List DiskFile) (path : FsPath)
    (file : FileNode) (content : List Char)
    (hread : diskRead disk path = .ok content) :
    ∀ r ∈ callsForFile g res func_index disk path file,
      r.relationship_type = .Calls "heuristic" →
      ∃ m ∈ scanFree p2At content, p2Excluded content m.1 = false ∧
        r.context = String.mk m.2 := by
  unfold callsForFile
  split
  · intro r hr
    cases hr
  · rw [hread]
    intro r hr hheur
    rcases callsP2_origin func_index content _ (scanFree p2At content) _ r hr with h1 | h1
    · rcases callsP1_origin g res func_index path _ (scanFree p1At content) _ r h1 with h2 | h2
      · cases h2
      · rw [hheur] at h2
        injection h2 with h2'
        exact absurd h2' (by decide)
    · obtain ⟨m, hm, hexc, -, hctx⟩ := h1
      exact ⟨m, hm, hexc, hctx⟩

/-- A file whose only qualified call site is preceded by `!`. -/
def c8Content : List Char := "! x::foo()\n".toList

def c8Disk : List DiskFile := [
  ⟨["caller.rs"], {}, .ok c8Content⟩,
  ⟨["callee.rs"], {}, .ok "pub fn foo() {}\n".toList⟩]

def c8Graph : KnowledgeGraph := (buildGraph CacheMode.Ignore none c8Disk "0").toOption.getD {}

/-- C8 counterexample: the built graph holds a `Calls{path}` edge whose
context `x::foo` occurs at a match site whose nearest preceding
non-whitespace character is `!` — qualified-chain (P1) sites are not
subject to the exclusion filter, so the claimed property fails for
`call_type "path"`. -/
theorem calls_filter_counterexample :
    ∃ r ∈ c8Graph.relationships, isCallsRel r.relationship_type = true ∧
      r.context = "x::foo" ∧
      ∃ site ∈ callSiteTexts c8Content, site.2 = r.context ∧
        p2Excluded c8Content site.1 = true := by
  decide

/-- The witness build: a plain `foo()` call resolved heuristically. -/
def c8WitContent : List Char := "foo()\n".toList

def c8WitDisk : List DiskFile := [
  ⟨["caller.rs"], {}, .ok c8WitContent⟩,
  ⟨["callee.rs"], {}, .ok "pub fn foo() {}\n".toList⟩]

def c8WitGraph : KnowledgeGraph :=
  (buildGraph CacheMode.Ignore none c8WitDisk "0").toOption.getD {}

def c8WitEdge : Relationship :=
  { from_item := "file:caller.rs"
    to_item := "fn:foo:1"
    relationship_type := .Calls "heuristic"
    strength := mkRat 5 10
    context := "foo" }

/-- Witness for the amended C8 theorem at a concrete heuristic edge. -/
theorem calls_exclusion_amended_witness :
    ∃ m ∈ scanFree p2At c8WitContent, p2Excluded c8WitContent m.1 = false ∧
      c8WitEdge.context = String.mk m.2 :=
  calls_exclusion_amended c8WitGraph (resolverNew c8WitGraph) (funcIndexOf c8WitGraph.files)
    c8WitDisk ["caller.rs"] ((alookup c8WitGraph.files ["caller.rs"]).getD {}) c8WitContent
    rfl c8WitEdge (by decide) (by decide)

/-! ### Query engine (src/query/mod.rs) -/

/-- Byte-lexicographic strict order on strings (Rust's `Ord` for
`String`), at the character-list level. -/
def charsLt : List Char → List Char → Bool
  | _, [] => false
  | [], _ :: _ => true
  | a :: as, b :: bs =>
    if a.toNat < b.toNat then true
    else if b.toNat < a.toNat then false
    else charsLt as bs

def strLt (a b : String) : Bool := charsLt a.data b.data

/-- Component-lexicographic order on paths (Rust's `Ord` for
`PathBuf`, componentwise). -/
def pathLe : List String → List String → Bool
  | [], _ => true
  | _ :: _, [] => false
  | a :: as, b :: bs =>
    if strLt a b then true else if strLt b a then false else pathLe as bs

/-- `Vec::sort` on paths: the canonical ascending reordering (Rust's
stable sort and an insertion sort agree on the sorted result). -/
def pathSort (l : List FsPath) : List FsPath :=
  List.insertionSort (fun a b => pathLe a b = true) l

/-- `ShortestPathQuery` support: item id → index of its file in the
sorted file list (lines 312-320). -/
def spItemToIdx (g : KnowledgeGraph) (files : List FsPath) : List (ItemId × Nat) :=
  g.files.foldl (fun m e =>
    match files.findIdx? (fun p => p == e.1) with
    | some i => e.2.items.foldl (fun m it => ainsert m it.id i) m
    | none => m) []

/-- The file-level edges in relationship order, self-loops dropped
(lines 321-330). -/
def spEdges (g : KnowledgeGraph) (files : List FsPath) : List (Nat × Nat) :=
  g.relationships.filterMap (fun rel =>
    match alookup (spItemToIdx g files) rel.from_item,
        alookup (spItemToIdx g files) rel.to_item with
    | some u, some v => if u ≠ v then some (u, v) else none
    | _, _ => none)

/-- `adj[u]` in insertion order. -/
def spAdjOf (g : KnowledgeGraph) (files : List FsPath) (u : Nat) : List Nat :=
  ((spEdges g files).filter (fun e => e.1 = u)).map (·.2)

/-- The BFS loop (lines 333-349): pop the queue head, stop on the
destination, push unvisited neighbours marking them visited with their
predecessor.  Each node is enqueued at most once, so `files.length`
steps of fuel are exact. -/
def bfsLoop (adjOf : Nat → List Nat) (dst : Nat) :
    Nat → List Nat → (Nat → Bool) → (Nat → Option Nat) →
      (Nat → Bool) × (Nat → Option Nat)
  | 0, _, vis, prev => (vis, prev)
  | _ + 1, [], vis, prev => (vis, prev)
  | fuel + 1, u :: qs, vis, prev =>
    if u = dst then (vis, prev)
    else
      let st := (adjOf u).foldl
        (fun (st : List Nat × (Nat → Bool) × (Nat → Option Nat)) v =>
          if st.2.1 v then st
          else (st.1 ++ [v], fun i => if i = v then true else st.2.1 i,
            fun i => if i = v then some u else st.2.2 i)) (qs, vis, prev)
      bfsLoop adjOf dst fuel st.1 st.2.1 st.2.2

/-- Path reconstruction (lines 356-361): follow predecessors from the
destination, collecting nodes while a predecessor exists. -/
def reconPath (prev : Nat → Option Nat) : Nat → Nat → List Nat
  | 0, _ => []
  | fuel + 1, cur =>
    match prev cur with
    | none => []
    | some p => cur :: reconPath prev fuel p

/-- The body of `ShortestPathQuery::run` once source and destination
have been resolved to indices in the sorted file list (lines 312-365);
`none` for either index returns the empty path (lines 308-310). -/
def spRunAux (g : KnowledgeGraph) : Option Nat → Option Nat → List FsPath
  | some si, some di =>
    let files := pathSort (g.files.map (·.1))
    let st := bfsLoop (spAdjOf g files) di files.length [si] (fun j => j == si)
      (fun _ => none)
    if st.1 di then
      ((reconPath st.2 files.length di ++ [si]).reverse).map (fun i => (files[i]?).getD [])
    else []
  | _, _ => []

/-- `ShortestPathQuery::run` (lines 300-367). -/
def ShortestPathQuery_run (src dst : FsPath) (g : KnowledgeGraph) : List FsPath :=
  spRunAux g ((pathSort (g.files.map (·.1))).findIdx? (fun p => p == src))
    ((pathSort (g.files.map (·.1))).findIdx? (fun p => p == dst))

/-- `ConnectedFilesQuery` support: the `item_to_file` index
(lines 67-75), built by insertion in file-list order. -/
def item_to_file_map (g : KnowledgeGraph) : List (ItemId × FsPath) :=
  g.files.foldl (fun m e => e.2.items.foldl (fun m it => ainsert m it.id e.1) m) []

/-- The `file_to_items` index (lines 67-75). -/
def file_to_items_map (g : KnowledgeGraph) : List (FsPath × List ItemId) :=
  g.files.foldl (fun m e => ainsert m e.1 (e.2.items.map (fun it => it.id))) []

/-- `out.insert(fp)` guarded by `fp != target_path` (lines 92-94): a
`HashSet` insert, modelled as append-if-absent so the accumulator lists
the set's elements (first-insertion order; the Rust set's iteration
order is arbitrary, but the result is sorted before being returned, so
only the membership matters). -/
def cfInsert (out : List FsPath) (fp : FsPath) (target : FsPath) : List FsPath :=
  if fp ≠ target then (if fp ∈ out then out else out ++ [fp]) else out

/-- One of the two symmetric blocks of the relationship loop
(lines 90-96 and 97-103): if `cond` is an item of the target file, add
the file holding `other` to the set. -/
def cfTouch (itf : List (ItemId × FsPath)) (target : FsPath) (ts : List ItemId)
    (cond other : ItemId) (out : List FsPath) : List FsPath :=
  if cond ∈ ts then
    match alookup itf other with
    | some fp => cfInsert out fp target
    | none => out
  else out

/-- One relationship's contribution to the connected set (lines 88-104):
the from-side block, then the to-side block. -/
def connectedStep (itf : List (ItemId × FsPath)) (target : FsPath) (ts : List ItemId)
    (out : List FsPath) (rel : Relationship) : List FsPath :=
  cfTouch itf target ts rel.to_item rel.from_item
    (cfTouch itf target ts rel.from_item rel.to_item out)

/-- `ConnectedFilesQuery::run` (lines 64-109). -/
def ConnectedFilesQuery_run (file : FsPath) (g : KnowledgeGraph) : List FsPath :=
  match g.files.find? (fun e => e.1 == file) with
  | none => []
  | some target =>
    match alookup (file_to_items_map g) target.1 with
    | none => []
    | some target_items =>
      pathSort (g.relationships.foldl
        (connectedStep (item_to_file_map g) target.1 target_items) [])

/-- The `kind` column of `UnreferencedItemsQuery` (lines 498-509). -/
def kindString : ItemType → String
  | .Module _ => "Module"
  | .Function _ _ => "Function"
  | .Struct _ => "Struct"
  | .Enum _ => "Enum"
  | .Trait _ => "Trait"
  | .Impl _ _ => "Impl"
  | .Const => "Const"
  | .Static _ => "Static"
  | .TyAlias => "Type"
  | .Macro => "Macro"

/-- The `vis` column (lines 510-516). -/
def visString : Visibility → String
  | .Public => "public"
  | .Private => "private"
  | .PubCrate => "pub(crate)"
  | .PubSuper => "pub(super)"
  | .PubIn _ => "pub(in)"

/-- One relationship's contribution to the `used` set (lines 469-476):
`Uses` and `Calls` targets, inserted if absent. -/
def usedStep (used : List ItemId) (rel : Relationship) : List ItemId :=
  match rel.relationship_type with
  | .Uses _ => if rel.to_item ∈ used then used else used ++ [rel.to_item]
  | .Calls _ => if rel.to_item ∈ used then used else used ++ [rel.to_item]
  | _ => used

/-- The `used` set of `UnreferencedItemsQuery` in insertion order. -/
def usedSet (rels : List Relationship) : List ItemId :=
  rels.foldl usedStep []

/-- One file's unreferenced rows (lines 485-524): skip the synthetic
item at index 0, skip `Public` items unless `include_public`, skip used
items; rows are (path, id, name, kind, vis). -/
def unrefRowsOf (include_public : Bool) (used : List ItemId) (e : FsPath × FileNode) :
    List (FsPath × String × String × String × String) :=
  e.2.items.enum.filterMap (fun pr =>
    if pr.1 = 0 then none
    else if include_public = false ∧ pr.2.visibility = .Public then none
    else if pr.2.id ∈ used then none
    else some (e.1, pr.2.id, pr.2.name, kindString pr.2.item_type, visString pr.2.visibility))

/-- `UnreferencedItemsQuery::run` (lines 465-528).  The `exclude` regex
is abstracted as a predicate on the rendered path; the rows are pushed
in file-list order with no final sort. -/
def UnreferencedItemsQuery_run (include_public : Bool) (exclude : Option (String → Bool))
    (g : KnowledgeGraph) : List (FsPath × String × String × String × String) :=
  g.files.foldl (fun out e =>
    match exclude with
    | some re => if re (pathRender e.1) then out
        else out ++ unrefRowsOf include_public (usedSet g.relationships) e
    | none => out ++ unrefRowsOf include_public (usedSet g.relationships) e) []

theorem bool_ne_true {b : Bool} (h : ¬ b = true) : b = false := by
  cases b <;> simp_all

theorem char_toNat_inj {a b : Char} (h : a.toNat = b.toNat) : a = b := by
  rw [← Char.ofNat_toNat a, ← Char.ofNat_toNat b, h]

theorem str_ext {a b : String} (h : a.data = b.data) : a = b := by
  cases a with
  | mk d1 => cases b with
    | mk d2 => exact congrArg String.mk h

theorem charsLt_asymm : ∀ a b, charsLt a b = true → charsLt b a = true → False := by
  intro a
  induction a with
  | nil =>
    intro b h1 h2
    cases b with
    | nil => simp [charsLt] at h1
    | cons y ys => simp [charsLt] at h2
  | cons x xs ih =>
    intro b h1 h2
    cases b with
    | nil => simp [charsLt] at h1
    | cons y ys =>
      simp only [charsLt] at h1 h2
      by_cases hxy : x.toNat < y.toNat
      · rw [if_neg (by omega), if_pos hxy] at h2
        exact absurd h2 (by simp)
      · rw [if_neg hxy] at h1
        by_cases hyx : y.toNat < x.toNat
        · rw [if_pos hyx] at h1
          exact absurd h1 (by simp)
        · rw [if_neg hyx] at h1
          rw [if_neg hyx, if_neg hxy] at h2
          exact ih ys h1 h2

theorem charsLt_connex : ∀ a b, charsLt a b = false → charsLt b a = false → a = b := by
  intro a
  induction a with
  | nil =>
    intro b h1 h2
    cases b with
    | nil => rfl
    | cons y ys => simp [charsLt] at h1
  | cons x xs ih =>
    intro b h1 h2
    cases b with
    | nil => simp [charsLt] at h2
    | cons y ys =>
      simp only [charsLt] at h1 h2
      by_cases hxy : x.toNat < y.toNat
      · rw [if_pos hxy] at h1
        exact absurd h1 (by simp)
      · by_cases hyx : y.toNat < x.toNat
        · rw [if_pos hyx] at h2
          exact absurd h2 (by simp)
        · rw [if_neg hxy, if_neg hyx] at h1
          rw [if_neg hyx, if_neg hxy] at h2
          have hx : x = y := char_toNat_inj (by omega)
          rw [hx, ih ys h1 h2]

theorem charsLt_trans :
    ∀ a b c, charsLt a b = true → charsLt b c = true → charsLt a c = true := by
  intro a
  induction a with
  | nil =>
    intro b c h1 h2
    cases b with
    | nil => simp [charsLt] at h1
    | cons y ys =>
      cases c with
      | nil => simp [charsLt] at h2
      | cons z zs => simp [charsLt]
  | cons x xs ih =>
    intro b c h1 h2
    cases b with
    | nil => simp [charsLt] at h1
    | cons y ys =>
      cases c with
      | nil => simp [charsLt] at h2
      | cons z zs =>
        simp only [charsLt] at h1 h2 ⊢
        by_cases hxy : x.toNat < y.toNat
        · by_cases hyz : y.toNat < z.toNat
          · rw [if_pos (by omega)]
          · rw [if_neg hyz] at h2
            by_cases hzy : z.toNat < y.toNat
            · rw [if_pos hzy] at h2
              exact absurd h2 (by simp)
            · rw [if_pos (by omega)]
        · rw [if_neg hxy] at h1
          by_cases hyx : y.toNat < x.toNat
          · rw [if_pos hyx] at h1
            exact absurd h1 (by simp)
          · rw [if_neg hyx] at h1
            by_cases hyz : y.toNat < z.toNat
            · rw [if_pos (by omega)]
            · rw [if_neg hyz] at h2
              by_cases hzy : z.toNat < y.toNat
              · rw [if_pos hzy] at h2
                exact absurd h2 (by simp)
              · rw [if_neg hzy] at h2
                rw [if_neg (by omega), if_neg (by omega)]
                exact ih ys zs h1 h2

theorem strLt_asymm {a b : String} (h1 : strLt a b = true) (h2 : strLt b a = true) :
    False :=
  charsLt_asymm a.data b.data h1 h2

theorem strLt_connex {a b : String} (h1 : strLt a b = false) (h2 : strLt b a = false) :
    a = b :=
  str_ext (charsLt_connex a.data b.data h1 h2)

theorem strLt_trans {a b c : String} (h1 : strLt a b = true) (h2 : strLt b c = true) :
    strLt a c = true :=
  charsLt_trans a.data b.data c.data h1 h2

theorem pathLe_total : ∀ a b : List String, pathLe a b = true ∨ pathLe b a = true := by
  intro a
  induction a with
  | nil => intro b; left; cases b <;> rfl
  | cons x xs ih =>
    intro b
    cases b with
    | nil => right; rfl
    | cons y ys =>
      simp only [pathLe]
      by_cases hxy : strLt x y = true
      · left
        rw [if_pos hxy]
      · by_cases hyx : strLt y x = true
        · right
          rw [if_pos hyx]
        · rw [if_neg hxy, if_neg hyx, if_neg hyx, if_neg hxy]
          exact ih ys

theorem pathLe_trans :
    ∀ a b c : List String, pathLe a b = true → pathLe b c = true → pathLe a c = true := by
  intro a
  induction a with
  | nil => intro b c _ _; cases c <;> rfl
  | cons x xs ih =>
    intro b c h1 h2
    cases b with
    | nil => simp [pathLe] at h1
    | cons y ys =>
      cases c with
      | nil => simp [pathLe] at h2
      | cons z zs =>
        simp only [pathLe] at h1 h2 ⊢
        by_cases hxy : strLt x y = true
        · by_cases hyz : strLt y z = true
          · rw [if_pos (strLt_trans hxy hyz)]
          · rw [if_neg hyz] at h2
            by_cases hzy : strLt z y = true
            · rw [if_pos hzy] at h2
              exact absurd h2 (by simp)
            · have hy : y = z := strLt_connex (bool_ne_true hyz) (bool_ne_true hzy)
              subst hy
              rw [if_pos hxy]
        · rw [if_neg hxy] at h1
          by_cases hyx : strLt y x = true
          · rw [if_pos hyx] at h1
            exact absurd h1 (by simp)
          · rw [if_neg hyx] at h1
            have hx : x = y := strLt_connex (bool_ne_true hxy) (bool_ne_true hyx)
            subst hx
            by_cases hxz : strLt x z = true
            · rw [if_pos hxz]
            · rw [if_neg hxz] at h2 ⊢
              by_cases hzx : strLt z x = true
              · rw [if_pos hzx] at h2
                exact absurd h2 (by simp)
              · rw [if_neg hzx] at h2 ⊢
                exact ih ys zs h1 h2

theorem pathLe_antisymm :
    ∀ a b : List String, pathLe a b = true → pathLe b a = true → a = b := by
  intro a
  induction a with
  | nil =>
    intro b h1 h2
    cases b with
    | nil => rfl
    | cons y ys => simp [pathLe] at h2
  | cons x xs ih =>
    intro b h1 h2
    cases b with
    | nil => simp [pathLe] at h1
    | cons y ys =>
      simp only [pathLe] at h1 h2
      by_cases hxy : strLt x y = true
      · by_cases hyx : strLt y x = true
        · exact (strLt_asymm hxy hyx).elim
        · rw [if_neg hyx, if_pos hxy] at h2
          exact absurd h2 (by simp)
      · rw [if_neg hxy] at h1
        by_cases hyx : strLt y x = true
        · rw [if_pos hyx] at h1
          exact absurd h1 (by simp)
        · rw [if_neg hyx] at h1
          rw [if_neg hyx, if_neg hxy] at h2
          rw [strLt_connex (bool_ne_true hxy) (bool_ne_true hyx), ih ys h1 h2]

instance : IsTotal FsPath (fun a b => pathLe a b = true) := ⟨pathLe_total⟩

instance : IsTrans FsPath (fun a b => pathLe a b = true) := ⟨pathLe_trans⟩

instance : IsAntisymm FsPath (fun a b => pathLe a b = true) := ⟨pathLe_antisymm⟩

theorem pathSort_sorted (l : List FsPath) :
    List.Sorted (fun a b => pathLe a b = true) (pathSort l) :=
  List.sorted_insertionSort _ l

theorem pathSort_perm (l : List FsPath) : (pathSort l).Perm l :=
  List.perm_insertionSort _ l

theorem pathSort_congr_perm {l1 l2 : List FsPath} (h : l1.Perm l2) :
    pathSort l1 = pathSort l2 :=
  List.eq_of_perm_of_sorted ((pathSort_perm l1).trans (h.trans (pathSort_perm l2).symm))
    (pathSort_sorted l1) (pathSort_sorted l2)

/-- Popping the queue head equal to the destination stops the BFS at
once (lines 338-341), before any neighbour scan. -/
theorem bfsLoop_head_dst (adj : Nat → List Nat) (dst : Nat) (fuel : Nat) (qs : List Nat)
    (vis : Nat → Bool) (prev : Nat → Option Nat) :
    bfsLoop adj dst (fuel + 1) (dst :: qs) vis prev = (vis, prev) := by
  simp only [bfsLoop]
  simp

/-- A member of a list is found by `findIdx?` at an index holding it. -/
theorem findIdx_beq_of_mem {a : FsPath} :
    ∀ (l : List FsPath) (s : Nat), a ∈ l →
      ∃ i, List.findIdx? (fun p => p == a) l s = some (s + i) ∧ l[i]? = some a := by
  intro l
  induction l with
  | nil => intro s h; simp at h
  | cons x xs ih =>
    intro s h
    by_cases hx : x = a
    · refine ⟨0, ?_, ?_⟩
      · rw [List.findIdx?_cons, if_pos (by simp [hx])]
        simp
      · simp [hx]
    · obtain ⟨i, hf, hg⟩ := ih (s + 1)
        ((List.mem_cons.mp h).resolve_left (fun he => hx he.symm))
      refine ⟨i + 1, ?_, ?_⟩
      · rw [List.findIdx?_cons, if_neg (by simp [hx]), hf]
        congr 1
        omega
      · rw [List.getElem?_cons_succ]
        exact hg

/-- C10: for every graph containing file `a`, `ShortestPathQuery::new(a, a)`
run on the graph returns the singleton path `[a]`, even when `a` has no
edges at all: the BFS marks the source visited and enqueues it, the
first pop compares it to the destination and breaks immediately, the
destination is visited, and reconstruction — whose predecessor map is
still empty — pushes just the source. -/
theorem shortest_path_self (g : KnowledgeGraph) (a : FsPath)
    (h : a ∈ g.files.map (fun e => e.1)) :
    ShortestPathQuery_run a a g = [a] := by
  have hmem : a ∈ pathSort (g.files.map (fun e => e.1)) :=
    (pathSort_perm _).mem_iff.mpr h
  obtain ⟨i, hf, hg⟩ := findIdx_beq_of_mem _ 0 hmem
  rw [Nat.zero_add] at hf
  cases hlen : (pathSort (g.files.map (fun e => e.1))).length with
  | zero =>
    rw [List.length_eq_zero] at hlen
    rw [hlen] at hmem
    simp at hmem
  | succ m =>
    simp only [ShortestPathQuery_run]
    rw [hf]
    simp only [spRunAux]
    rw [hlen, bfsLoop_head_dst]
    simp only [reconPath]
    simp [hg]

/-- A two-file graph with no relationships at all. -/
def c10Graph : KnowledgeGraph :=
  { files := [(["src", "b.rs"],
      { path := ["src", "b.rs"], items := [mkFileItem ["src", "b.rs"]] }),
    (["src", "a.rs"],
      { path := ["src", "a.rs"], items := [mkFileItem ["src", "a.rs"]] })] }

/-- C10 witness: on the concrete edgeless two-file graph, the
source-equals-destination query returns the singleton path. -/
theorem shortest_path_self_witness :
    (["src", "a.rs"] ∈ c10Graph.files.map (fun e => e.1)) ∧
      ShortestPathQuery_run ["src", "a.rs"] ["src", "a.rs"] c10Graph
        = [["src", "a.rs"]] :=
  ⟨by decide, shortest_path_self c10Graph ["src", "a.rs"] (by decide)⟩

/-- Whether a relationship counts into the `used` set (lines 470-475). -/
def isUsesCalls (r : Relationship) : Bool :=
  match r.relationship_type with
  | .Uses _ => true
  | .Calls _ => true
  | _ => false

theorem usedStep_mem (used : List ItemId) (r : Relationship) (a : ItemId) :
    a ∈ usedStep used r ↔ a ∈ used ∨ (isUsesCalls r = true ∧ r.to_item = a) := by
  unfold usedStep isUsesCalls
  cases hrt : r.relationship_type <;> simp only [hrt] <;>
    first
      | (by_cases hm : r.to_item ∈ used
         · rw [if_pos hm]
           constructor
           · exact fun h => Or.inl h
           · rintro (h | ⟨-, h⟩)
             · exact h
             · exact h ▸ hm
         · rw [if_neg hm]
           simp [List.mem_append, eq_comm])
      | simp

theorem usedSet_aux_mem :
    ∀ (rels : List Relationship) (acc : List ItemId) (a : ItemId),
      a ∈ rels.foldl usedStep acc ↔
        a ∈ acc ∨ ∃ r ∈ rels, isUsesCalls r = true ∧ r.to_item = a := by
  intro rels
  induction rels with
  | nil => intro acc a; simp
  | cons r rs ih =>
    intro acc a
    rw [List.foldl_cons, ih, usedStep_mem, List.exists_mem_cons_iff]
    tauto

/-- Membership in the `used` set only depends on the multiset of
relationships: it holds exactly of the targets of `Uses`/`Calls` edges. -/
theorem usedSet_mem_iff_of_perm {l1 l2 : List Relationship} (h : l1.Perm l2)
    (a : ItemId) : a ∈ usedSet l1 ↔ a ∈ usedSet l2 := by
  unfold usedSet
  rw [usedSet_aux_mem, usedSet_aux_mem]
  simp only [List.not_mem_nil, false_or]
  constructor
  · rintro ⟨r, hr, hp⟩
    exact ⟨r, h.mem_iff.mp hr, hp⟩
  · rintro ⟨r, hr, hp⟩
    exact ⟨r, h.mem_iff.mpr hr, hp⟩

theorem unrefRowsOf_congr (ip : Bool) {u1 u2 : List ItemId}
    (h : ∀ x, x ∈ u1 ↔ x ∈ u2) (e : FsPath × FileNode) :
    unrefRowsOf ip u1 e = unrefRowsOf ip u2 e := by
  unfold unrefRowsOf
  congr 1
  funext pr
  by_cases h0 : pr.1 = 0
  · rw [if_pos h0, if_pos h0]
  · rw [if_neg h0, if_neg h0]
    by_cases hv : ip = false ∧ pr.2.visibility = .Public
    · rw [if_pos hv, if_pos hv]
    · rw [if_neg hv, if_neg hv]
      by_cases hu : pr.2.id ∈ u1
      · rw [if_pos hu, if_pos ((h _).mp hu)]
      · rw [if_neg hu, if_neg (fun hx => hu ((h _).mpr hx))]

/-- `UnreferencedItemsQuery` depends on the relationships only through
the `used` set's membership, so its rows are unchanged by reordering
the relationship list. -/
theorem UnreferencedItems_rel_perm {g1 g2 : KnowledgeGraph}
    (hf : g1.files = g2.files) (hr : g1.relationships.Perm g2.relationships)
    (ip : Bool) (ex : Option (String → Bool)) :
    UnreferencedItemsQuery_run ip ex g1 = UnreferencedItemsQuery_run ip ex g2 := by
  unfold UnreferencedItemsQuery_run
  have hrows : unrefRowsOf ip (usedSet g1.relationships)
      = unrefRowsOf ip (usedSet g2.relationships) := by
    funext e
    exact unrefRowsOf_congr ip (fun x => usedSet_mem_iff_of_perm hr x) e
  rw [hf, hrows]

theorem cfInsert_mem (out : List FsPath) (fp target a : FsPath) :
    a ∈ cfInsert out fp target ↔ a ∈ out ∨ (fp ≠ target ∧ a = fp) := by
  unfold cfInsert
  by_cases ht : fp ≠ target
  · rw [if_pos ht]
    by_cases hm : fp ∈ out
    · rw [if_pos hm]
      constructor
      · exact fun h => Or.inl h
      · rintro (h | ⟨-, h⟩)
        · exact h
        · exact h ▸ hm
    · rw [if_neg hm]
      simp [List.mem_append, ht]
  · rw [if_neg ht]
    simp [ht]

theorem cfInsert_nodup {out : List FsPath} (h : out.Nodup) (fp target : FsPath) :
    (cfInsert out fp target).Nodup := by
  unfold cfInsert
  by_cases ht : fp ≠ target
  · rw [if_pos ht]
    by_cases hm : fp ∈ out
    · rw [if_pos hm]
      exact h
    · rw [if_neg hm]
      exact List.Nodup.append h (by simp) (List.disjoint_singleton.mpr hm)
  · rw [if_neg ht]
    exact h

theorem cfTouch_mem (itf : List (ItemId × FsPath)) (target : FsPath)
    (ts : List ItemId) (c o : ItemId) (out : List FsPath) (a : FsPath) :
    a ∈ cfTouch itf target ts c o out ↔
      a ∈ out ∨ (a ≠ target ∧ c ∈ ts ∧ alookup itf o = some a) := by
  unfold cfTouch
  by_cases hc : c ∈ ts
  · rw [if_pos hc]
    cases hl : alookup itf o with
    | none => simp [hl, hc]
    | some fp =>
      rw [cfInsert_mem]
      simp only [hl, hc, Option.some.injEq, true_and]
      constructor
      · rintro (h | ⟨hne, he⟩)
        · exact Or.inl h
        · exact Or.inr ⟨fun hat => hne (by rw [← he]; exact hat), by rw [he]⟩
      · rintro (h | ⟨hat, he⟩)
        · exact Or.inl h
        · exact Or.inr ⟨fun h' => hat (by rw [← h']; exact he.symm), he.symm⟩
  · rw [if_neg hc]
    simp [hc]

theorem cfTouch_nodup (itf : List (ItemId × FsPath)) (target : FsPath)
    (ts : List ItemId) (c o : ItemId) {out : List FsPath} (h : out.Nodup) :
    (cfTouch itf target ts c o out).Nodup := by
  unfold cfTouch
  by_cases hc : c ∈ ts
  · rw [if_pos hc]
    cases hl : alookup itf o with
    | none => exact h
    | some fp => exact cfInsert_nodup h fp target
  · rw [if_neg hc]
    exact h

theorem connectedStep_mem (itf : List (ItemId × FsPath)) (target : FsPath)
    (ts : List ItemId) (out : List FsPath) (rel : Relationship) (a : FsPath) :
    a ∈ connectedStep itf target ts out rel ↔
      a ∈ out ∨ (a ≠ target ∧
        ((rel.from_item ∈ ts ∧ alookup itf rel.to_item = some a) ∨
          (rel.to_item ∈ ts ∧ alookup itf rel.from_item = some a))) := by
  unfold connectedStep
  rw [cfTouch_mem, cfTouch_mem]
  tauto

theorem connectedStep_nodup (itf : List (ItemId × FsPath)) (target : FsPath)
    (ts : List ItemId) {out : List FsPath} (h : out.Nodup) (rel : Relationship) :
    (connectedStep itf target ts out rel).Nodup :=
  cfTouch_nodup _ _ _ _ _ (cfTouch_nodup _ _ _ _ _ h)

/-- Membership in the accumulated connected set, characterised by the
relationships it was built from. -/
theorem connectedFold_mem (itf : List (ItemId × FsPath)) (target : FsPath)
    (ts : List ItemId) :
    ∀ (rels : List Relationship) (out : List FsPath) (a : FsPath),
      a ∈ rels.foldl (connectedStep itf target ts) out ↔
        a ∈ out ∨ (a ≠ target ∧ ∃ r ∈ rels,
          ((r.from_item ∈ ts ∧ alookup itf r.to_item = some a) ∨
            (r.to_item ∈ ts ∧ alookup itf r.from_item = some a))) := by
  intro rels
  induction rels with
  | nil => intro out a; simp
  | cons r rs ih =>
    intro out a
    rw [List.foldl_cons, ih, connectedStep_mem, List.exists_mem_cons_iff]
    constructor
    · rintro ((h | ⟨ht, hp⟩) | ⟨ht, he⟩)
      · exact Or.inl h
      · exact Or.inr ⟨ht, Or.inl hp⟩
      · exact Or.inr ⟨ht, Or.inr he⟩
    · rintro (h | ⟨ht, hp | he⟩)
      · exact Or.inl (Or.inl h)
      · exact Or.inl (Or.inr ⟨ht, hp⟩)
      · exact Or.inr ⟨ht, he⟩

theorem connectedFold_nodup (itf : List (ItemId × FsPath)) (target : FsPath)
    (ts : List ItemId) :
    ∀ (rels : List Relationship) {out : List FsPath}, out.Nodup →
      (rels.foldl (connectedStep itf target ts) out).Nodup := by
  intro rels
  induction rels with
  | nil => intro out h; exact h
  | cons r rs ih =>
    intro out h
    rw [List.foldl_cons]
    exact ih (connectedStep_nodup itf target ts h r)

/-- `ConnectedFilesQuery` builds a set and sorts it, so its output is
unchanged by reordering the relationship list. -/
theorem ConnectedFiles_rel_perm {g1 g2 : KnowledgeGraph}
    (hf : g1.files = g2.files) (hr : g1.relationships.Perm g2.relationships)
    (file : FsPath) :
    ConnectedFilesQuery_run file g1 = ConnectedFilesQuery_run file g2 := by
  unfold ConnectedFilesQuery_run
  have hitf : item_to_file_map g1 = item_to_file_map g2 := by
    unfold item_to_file_map
    rw [hf]
  have hfti : file_to_items_map g1 = file_to_items_map g2 := by
    unfold file_to_items_map
    rw [hf]
  rw [hf, hitf, hfti]
  cases hfind : g2.files.find? (fun e => e.1 == file) with
  | none => rfl
  | some target =>
    simp only []
    cases hlook : alookup (file_to_items_map g2) target.1 with
    | none => rfl
    | some target_items =>
      simp only []
      refine pathSort_congr_perm ?_
      refine (List.perm_ext_iff_of_nodup
        (connectedFold_nodup _ _ _ _ List.nodup_nil)
        (connectedFold_nodup _ _ _ _ List.nodup_nil)).mpr ?_
      intro a
      rw [connectedFold_mem, connectedFold_mem]
      simp only [List.not_mem_nil, false_or]
      constructor
      · rintro ⟨hat, r, hrm, hp⟩
        exact ⟨hat, r, hr.mem_iff.mp hrm, hp⟩
      · rintro ⟨hat, r, hrm, hp⟩
        exact ⟨hat, r, hr.mem_iff.mpr hrm, hp⟩

/-- A file node holding its synthetic file-level item and one private
function. -/
def c9Node (p : FsPath) (fnName : String) : FileNode :=
  { path := p
    items := [mkFileItem p,
      { id := "fn:" ++ fnName
        item_type := .Function false false
        name := fnName
        visibility := .Private
        location := { file := p, line_start := 2, line_end := 2 }
        attributes := [] }] }

/-- Two-file graph, file list in one order. -/
def c9xG1 : KnowledgeGraph :=
  { files := [(["src", "a.rs"], c9Node ["src", "a.rs"] "fa"),
      (["src", "b.rs"], c9Node ["src", "b.rs"] "fb")] }

/-- The same files map with the underlying list in the other order —
the same graph as data, differing only in iteration order. -/
def c9xG2 : KnowledgeGraph :=
  { files := [(["src", "b.rs"], c9Node ["src", "b.rs"] "fb"),
      (["src", "a.rs"], c9Node ["src", "a.rs"] "fa")] }

/-- C9 counterexample: two graphs equal as data — the file lists are
permutations of each other and the relationship lists are equal — on
which `UnreferencedItemsQuery`, which pushes its rows in file iteration
order and never sorts them, returns differently ordered results. -/
theorem unreferenced_items_file_order_counterexample :
    c9xG1.files.Perm c9xG2.files ∧
      c9xG1.relationships = c9xG2.relationships ∧
      UnreferencedItemsQuery_run false none c9xG1
        ≠ UnreferencedItemsQuery_run false none c9xG2 :=
  ⟨List.Perm.swap _ _ _, rfl, by decide⟩

/-- C9 (amended): query outputs are deterministic in the relationship
order: for two graphs with the same files list and permuted
relationship lists, `ConnectedFilesQuery` (which collects a set and
sorts it by path) and `UnreferencedItemsQuery` (which only reads the
`used` membership) return identical results.  Determinism in the file
map's iteration order does NOT hold for `UnreferencedItemsQuery`, whose
row order follows the iteration order (see the counterexample). -/
theorem queries_relationship_order_deterministic (g1 g2 : KnowledgeGraph)
    (hf : g1.files = g2.files) (hr : g1.relationships.Perm g2.relationships)
    (file : FsPath) (ip : Bool) (ex : Option (String → Bool)) :
    ConnectedFilesQuery_run file g1 = ConnectedFilesQuery_run file g2 ∧
      UnreferencedItemsQuery_run ip ex g1 = UnreferencedItemsQuery_run ip ex g2 :=
  ⟨ConnectedFiles_rel_perm hf hr file, UnreferencedItems_rel_perm hf hr ip ex⟩

/-- Three files, with `fa` using `fb` and calling `fc`. -/
def c9wFiles : List (FsPath × FileNode) :=
  [(["src", "a.rs"], c9Node ["src", "a.rs"] "fa"),
    (["src", "b.rs"], c9Node ["src", "b.rs"] "fb"),
    (["src", "c.rs"], c9Node ["src", "c.rs"] "fc")]

def c9r1 : Relationship :=
  { from_item := "fn:fa", to_item := "fn:fb", relationship_type := .Uses "import-item"
    strength := 1, context := "use" }

def c9r2 : Relationship :=
  { from_item := "fn:fa", to_item := "fn:fc", relationship_type := .Calls "path"
    strength := mkRat 7 10, context := "fc" }

def c9wG1 : KnowledgeGraph := { files := c9wFiles, relationships := [c9r1, c9r2] }

def c9wG2 : KnowledgeGraph := { files := c9wFiles, relationships := [c9r2, c9r1] }

/-- C9 witness: on concrete graphs whose relationship lists are genuine
permutations of each other, both query outputs coincide. -/
theorem queries_relationship_order_deterministic_witness :
    c9wG1.files = c9wG2.files ∧
      c9wG1.relationships.Perm c9wG2.relationships ∧
      (ConnectedFilesQuery_run ["src", "a.rs"] c9wG1
          = ConnectedFilesQuery_run ["src", "a.rs"] c9wG2 ∧
        UnreferencedItemsQuery_run false none c9wG1
          = UnreferencedItemsQuery_run false none c9wG2) :=
  ⟨rfl, List.Perm.swap c9r2 c9r1 [],
    queries_relationship_order_deterministic c9wG1 c9wG2 rfl
      (List.Perm.swap c9r2 c9r1 []) ["src", "a.rs"] false none⟩
